import Mathlib

/-!
Verification of the dependency-graph metric evaluator of philosofool/phi-utils
(src/philosofool/data_science/graph.py), as a shallow embedding.

Identifiers (metric names, column names) are modelled as natural numbers.
Column data is modelled as lists of integers.  A Python dict is modelled as an
association list with first-match lookup and insert-or-overwrite update; a
Python set is modelled as a `Finset`.
-/

/-- A column of tabular data: one integer per row. -/
abbrev Column := List Int

/-- A dependency graph: a Python dict mapping a metric to the ordered sequence
of metrics it directly depends on (`dict[Any, Iterable]`). -/
abbrev Graph := List (Nat × List Nat)

/-- A Python dataframe, reduced to what the code consumes: named columns. -/
abbrev DataFrame := List (Nat × Column)

/-- First-match association-list lookup: Python `dict.__getitem__` / `dict.get`
(`none` when the key is absent). -/
def dictGet {α : Type} : List (Nat × α) → Nat → Option α
  | [], _ => none
  | (k, v) :: rest, key => if k = key then some v else dictGet rest key

/-- Python `dict[key] = value`: overwrite the value at an existing key in
place (keeping its position) or append a new binding at the end. -/
def dictInsert {α : Type} : List (Nat × α) → Nat → α → List (Nat × α)
  | [], key, value => [(key, value)]
  | (k, v) :: rest, key, value =>
    if k = key then (key, value) :: rest else (k, v) :: dictInsert rest key value

/-- Python `graph.get(value, [])`: the direct predecessors (dependencies) recorded for
an identifier; an identifier that is not a key is a leaf with no dependencies. -/
def predsOf (g : Graph) (v : Nat) : List Nat :=
  (dictGet g v).getD []

/-- Every identifier mentioned by the graph: keys and dependency entries. -/
def allNodesList (g : Graph) : List Nat :=
  (g.map Prod.fst ++ (g.map Prod.snd).flatten).dedup

/-- Every identifier mentioned by the graph, as a finite set. -/
def graphNodes (g : Graph) : Finset Nat :=
  (allNodesList g).toFinset

/-- The edge relation of the dependency graph: `Edge g m d` holds when metric
`m` directly depends on identifier `d`. -/
def Edge (g : Graph) (m d : Nat) : Prop := d ∈ predsOf g m

instance (g : Graph) (m d : Nat) : Decidable (Edge g m d) := by
  unfold Edge; infer_instance

/-- The `for predecessor in predecessors` loop of `get_ancestors` (graph.py
lines 18-22): skip a predecessor already in the visited set; otherwise add it,
recurse (the recursive call is the abstract argument `rec`), and fold the
returned set into the accumulator (`ancestors.update(...)`). -/
def ancLoop (rec : Nat → Finset Nat → Option (Finset Nat)) :
    List Nat → Finset Nat → Option (Finset Nat)
  | [], ancestors => some ancestors
  | p :: rest, ancestors =>
    if p ∈ ancestors then ancLoop rec rest ancestors
    else
      match rec p (insert p ancestors) with
      | none => none
      | some r => ancLoop rec rest (insert p ancestors ∪ r)

/-- Fuel-indexed embedding of `get_ancestors` (graph.py lines 13-23).  The
Python function recurses on each not-yet-visited predecessor after adding it to
the visited set; one unit of fuel is consumed per nested `get_ancestors` call,
and `none` signals fuel exhaustion (shown unreachable for enough fuel in
`getAncestorsFuel_eq`). -/
def getAncestorsFuel : Nat → Graph → Nat → Finset Nat → Option (Finset Nat)
  | 0, _, _, _ => none
  | fuel + 1, g, value, ancestors => ancLoop (getAncestorsFuel fuel g) (predsOf g value) ancestors

/-- Function `get_ancestors(value, graph, ancestors)` (graph.py lines 13-23), run with
enough fuel for its recursion, which `getAncestorsFuel_eq` proves is bounded by
the number of distinct identifiers not yet visited. -/
def get_ancestors (g : Graph) (value : Nat) (ancestors : Finset Nat) : Finset Nat :=
  (getAncestorsFuel ((graphNodes g \ ancestors).card + 1) g value ancestors).getD ancestors

/-- A dependency path `v = x0 → x1 → … → xk = u` (`k ≥ 0`) all of whose nodes,
the start included, avoid the set `A`.  This is the notion of reachability that
`get_ancestors` realises when it is seeded with an already-visited set. -/
inductive AvoidPath (g : Graph) (A : Set Nat) : Nat → Nat → Prop
  | refl (v : Nat) (hv : v ∉ A) : AvoidPath g A v v
  | tail {v u w : Nat} (h : AvoidPath g A v u) (e : Edge g u w) (hw : w ∉ A) :
      AvoidPath g A v w

/-- Sorting a multiset of naturals: lifts `insertionSort` through the
permutation quotient (well-defined since a sorted permutation is unique). -/
def multisetSortedList (s : Multiset Nat) : List Nat :=
  Quot.liftOn s (fun l => l.insertionSort (· ≤ ·)) (fun l1 l2 h => by
    apply List.eq_of_perm_of_sorted (r := (· ≤ ·))
    · exact (List.perm_insertionSort _ l1).trans
        ((Quotient.exact (Quotient.sound h)).trans (List.perm_insertionSort _ l2).symm)
    · exact List.sorted_insertionSort _ l1
    · exact List.sorted_insertionSort _ l2)

/-- Canonical enumeration of a finite identifier set, in increasing order.
Python iterates a `set` in an unspecified order; every use below feeds the
enumeration to a deterministic rank-based sort, so any enumeration yields the
same downstream results, and we fix the increasing one. -/
def finsetToList (s : Finset Nat) : List Nat :=
  multisetSortedList s.val

/-- Errors surfaced by the metric graph: Python `KeyError(k)` (the spec's
MissingFunctionError is realised as a `KeyError` naming the metric) and
`graphlib.CycleError`. -/
inductive CalcError : Type
  | keyError (k : Nat)
  | cycleError
deriving DecidableEq, Repr

/-- Modelled from the spec (§4.2): one Kahn round of
`graphlib.TopologicalSorter(graph).static_order()`, which is stdlib code not
in this repository: repeatedly emit every node whose recorded dependencies
have all been emitted; if a nonempty remainder has no such node, the graph has
a cycle and `CycleError` is raised.  `fuel` bounds the rounds; it is spent
only on progress-making rounds, so `allNodesList` length suffices. -/
def kahnAux (g : Graph) : Nat → List Nat → List Nat → Except CalcError (List Nat)
  | 0, pending, done => if pending.isEmpty then .ok done else .error .cycleError
  | fuel + 1, pending, done =>
    if pending.isEmpty then .ok done
    else
      let ready := pending.filter (fun n => decide (∀ d ∈ predsOf g n, d ∈ done))
      if ready.isEmpty then .error .cycleError
      else
        kahnAux g fuel
          (pending.filter (fun n => !decide (∀ d ∈ predsOf g n, d ∈ done)))
          (done ++ ready)

/-- Modelled from the spec (§4.2): `TopologicalSorter(graph).static_order()`
over every identifier the graph mentions, dependencies first, raising
`CycleError` on a cyclic graph. -/
def staticOrder (g : Graph) : Except CalcError (List Nat) :=
  kahnAux g (allNodesList g).length (allNodesList g) []

/-- The metric graph (graph.py lines 26-65): a dependency graph together with
a mapping from metric to computing function.  A computing function takes the
dependency columns positionally, in dependency-list order. -/
structure MetricGraph : Type where
  dependency_graph : Graph
  metric_functions : List (Nat × (List Column → Column))

/-- Method `MetricGraph._topologically_sorted_metrics` (graph.py lines 157-159): the
full topological order; the Python `{metric: i for i, metric in enumerate(...)}`
rank dictionary is represented by the list itself, rank = position. -/
def MetricGraph.topologically_sorted_metrics (mg : MetricGraph) :
    Except CalcError (List Nat) :=
  staticOrder mg.dependency_graph

/-- The `MetricGraph.metrics` property (graph.py lines 138-141): the metrics of the
graph, topologically sorted (the keys of the rank dictionary, in rank order). -/
def MetricGraph.metrics (mg : MetricGraph) : Except CalcError (List Nat) :=
  mg.topologically_sorted_metrics

/-- Method `MetricGraph._sort_metrics_topologically` (graph.py lines 161-163):
`sorted(metrics, key=lambda metric: _top_sorted_metrics[metric])`.  A metric
without a rank raises `KeyError` (the Python lookup inside the sort key); the
sort itself is a stable sort by rank. -/
def MetricGraph.sort_metrics_topologically (mg : MetricGraph) (metrics : List Nat) :
    Except CalcError (List Nat) :=
  match mg.topologically_sorted_metrics with
  | .error e => .error e
  | .ok order =>
    match metrics.find? (fun m => !decide (m ∈ order)) with
    | some m => .error (.keyError m)
    | none => .ok (metrics.insertionSort (fun a b => order.indexOf a ≤ order.indexOf b))

/-- The list comprehension of `MetricGraph._calculate_metric` (graph.py line
87): `[calculated_metrics[metric] for metric in dependencies]`, raising
`KeyError` naming the first unresolved dependency. -/
def gatherDeps (calculated_metrics : List (Nat × Column)) :
    List Nat → Except CalcError (List Column)
  | [] => .ok []
  | dep :: rest =>
    match dictGet calculated_metrics dep with
    | none => .error (.keyError dep)
    | some v =>
      match gatherDeps calculated_metrics rest with
      | .error e => .error e
      | .ok vs => .ok (v :: vs)

/-- Method `MetricGraph._calculate_metric` (graph.py lines 83-88): look up the
computing function (`KeyError` naming the metric when absent), look up the
dependency list (likewise), gather the already-resolved dependency values,
and apply the function positionally. -/
def MetricGraph.calculate_metric (mg : MetricGraph) (metric : Nat)
    (calculated_metrics : List (Nat × Column)) : Except CalcError Column :=
  match dictGet mg.metric_functions metric with
  | none => .error (.keyError metric)
  | some calculator =>
    match dictGet mg.dependency_graph metric with
    | none => .error (.keyError metric)
    | some dependencies =>
      match gatherDeps calculated_metrics dependencies with
      | .error e => .error e
      | .ok data => .ok (calculator data)

/-- The walk of `calculate_metrics` (graph.py lines 110-117): in ranked order,
recompute a requested metric or one with no same-named column; take the
table's value for an unrequested metric whose column is present. -/
def MetricGraph.calcWalk (mg : MetricGraph) (df : DataFrame) (requested : List Nat) :
    List Nat → List (Nat × Column) → Except CalcError (List (Nat × Column))
  | [], calculated => .ok calculated
  | m :: rest, calculated =>
    match dictGet df m with
    | none =>
      match mg.calculate_metric m calculated with
      | .error e => .error e
      | .ok v => mg.calcWalk df requested rest (dictInsert calculated m v)
    | some value =>
      if m ∈ requested then
        match mg.calculate_metric m calculated with
        | .error e => .error e
        | .ok v => mg.calcWalk df requested rest (dictInsert calculated m v)
      else mg.calcWalk df requested rest (dictInsert calculated m value)

/-- The walk of `recalculate_metrics` (graph.py lines 133-135): recompute
every ranked metric from its function, never consulting the table. -/
def MetricGraph.recalcWalk (mg : MetricGraph) :
    List Nat → List (Nat × Column) → Except CalcError (List (Nat × Column))
  | [], calculated => .ok calculated
  | m :: rest, calculated =>
    match mg.calculate_metric m calculated with
    | .error e => .error e
    | .ok v => mg.recalcWalk rest (dictInsert calculated m v)

/-- The final comprehension of both evaluation policies (graph.py lines 118 and
136): `{metric: calculated_metrics[metric] for metric in metrics}`. -/
def buildResult (calculated : List (Nat × Column)) :
    List Nat → List (Nat × Column) → Except CalcError (List (Nat × Column))
  | [], acc => .ok acc
  | m :: rest, acc =>
    match dictGet calculated m with
    | none => .error (.keyError m)
    | some v => buildResult calculated rest (dictInsert acc m v)

/-- Line 106 of graph.py: the dependency closure of the requested metrics,
seeded with `set(df.columns.intersection(self.dependency_graph))` — the table
columns that are also graph keys — and folded with `get_ancestors` over the
requested metrics. -/
def MetricGraph.calcDependencies (mg : MetricGraph) (df : DataFrame)
    (metrics : List Nat) : Finset Nat :=
  metrics.foldl (fun a b => a ∪ get_ancestors mg.dependency_graph b a)
    ((df.map Prod.fst).filter
      (fun c => decide (c ∈ mg.dependency_graph.map Prod.fst))).toFinset

/-- Method `MetricGraph.calculate_metrics` (graph.py lines 96-118): rank the closure
∪ requested topologically, walk it (computing or taking table values), and
return only the requested identifiers' values. -/
def MetricGraph.calculate_metrics (mg : MetricGraph) (df : DataFrame)
    (metrics : List Nat) : Except CalcError (List (Nat × Column)) :=
  match mg.sort_metrics_topologically
      (finsetToList (mg.calcDependencies df metrics ∪ metrics.toFinset)) with
  | .error e => .error e
  | .ok sortedMetrics =>
    match mg.calcWalk df metrics sortedMetrics [] with
    | .error e => .error e
    | .ok calculated => buildResult calculated metrics []

/-- Method `MetricGraph.get_metric_dependencies` (graph.py lines 148-154): fold the
ancestor resolver over the starting metrics, seeding each expansion with the
set accumulated so far. -/
def MetricGraph.get_metric_dependencies (mg : MetricGraph) (metrics : List Nat) :
    Finset Nat :=
  metrics.foldl
    (fun dependencies metric =>
      dependencies ∪ get_ancestors mg.dependency_graph metric dependencies) ∅

/-- Method `MetricGraph.recalculate_metrics` (graph.py lines 120-136): rank the full
dependency closure ∪ requested, recompute every ranked metric from its
function (the dataframe is never consulted), and return the requested values. -/
def MetricGraph.recalculate_metrics (mg : MetricGraph) (df : DataFrame)
    (metrics : List Nat) : Except CalcError (List (Nat × Column)) :=
  match
    mg.sort_metrics_topologically
      (finsetToList (mg.get_metric_dependencies metrics ∪ metrics.toFinset)) with
  | .error e => .error e
  | .ok sortedMetrics =>
    match mg.recalcWalk sortedMetrics [] with
    | .error e => .error e
    | .ok calculated => buildResult calculated metrics []

/-- Pandas `df.assign(**calculated_metrics)` (external): a new dataframe with
each computed column set — overwritten in place when the name exists, appended
otherwise; all other columns untouched. -/
def dfAssign (df : DataFrame) (calculated : List (Nat × Column)) : DataFrame :=
  calculated.foldl (fun d kv => dictInsert d kv.1 kv.2) df

/-- Method `MetricGraph.add_metrics` (graph.py lines 143-146): compute the requested
metrics and return a new dataframe with those columns set. -/
def MetricGraph.add_metrics (mg : MetricGraph) (df : DataFrame)
    (metrics : List Nat) : Except CalcError DataFrame :=
  match mg.calculate_metrics df metrics with
  | .error e => .error e
  | .ok calculated => .ok (dfAssign df calculated)

/-- A graph is cyclic when some identifier depends, transitively, on itself. -/
def Cyclic (g : Graph) : Prop :=
  ∃ v, Relation.TransGen (Edge g) v v

/-- A set of identifiers closed under taking direct dependencies. -/
def EdgeClosed (g : Graph) (A : Set Nat) : Prop :=
  ∀ x ∈ A, ∀ d, Edge g x d → d ∈ A

instance {ε α : Type} [DecidableEq ε] [DecidableEq α] : DecidableEq (Except ε α)
  | .error e, .error e' =>
    if h : e = e' then .isTrue (by rw [h]) else .isFalse (by simp [h])
  | .error _, .ok _ => .isFalse (by simp)
  | .ok _, .error _ => .isFalse (by simp)
  | .ok a, .ok a' =>
    if h : a = a' then .isTrue (by rw [h]) else .isFalse (by simp [h])

/-- All directed edges of a dependency graph, as explicit pairs. -/
def edgeList (g : Graph) : List (Nat × Nat) :=
  (g.map (fun p => p.2.map (fun d => (p.1, d)))).flatten

/-- Spec Example 1 as a fixture: `{BA: (H, AB), AB: (PA, BB), H: (1B,2B,3B,HR)}`
with BA=0, H=1, AB=2, PA=3, BB=4, 1B..HR=5..8; functions divide and subtract. -/
def exMG : MetricGraph where
  dependency_graph := [(0, [1, 2]), (2, [3, 4]), (1, [5, 6, 7, 8])]
  metric_functions :=
    [(0, fun cols => (cols.getD 0 []).zipWith (· / ·) (cols.getD 1 [])),
     (2, fun cols => (cols.getD 0 []).zipWith (· - ·) (cols.getD 1 []))]

/-- Spec Example 1's table: `H=[170,150], BB=[80,100], PA=[600,600]`. -/
def exDF : DataFrame := [(1, [170, 150]), (4, [80, 100]), (3, [600, 600])]

/-- Spec Example 3's two-cycle `{a: (b,), b: (a,)}` with a=0, b=1. -/
def cycMG : MetricGraph where
  dependency_graph := [(0, [1]), (1, [0])]
  metric_functions := []

/-- A one-metric graph whose metric has no computing function. -/
def missMG : MetricGraph where
  dependency_graph := [(0, [])]
  metric_functions := []

theorem AvoidPath.start_not_mem {g : Graph} {A : Set Nat} {v u : Nat}
    (h : AvoidPath g A v u) : v ∉ A := by
  induction h with
  | refl hv => exact hv
  | tail _ _ _ ih => exact ih

theorem AvoidPath.end_not_mem {g : Graph} {A : Set Nat} {v u : Nat}
    (h : AvoidPath g A v u) : u ∉ A := by
  cases h with
  | refl hv => exact hv
  | tail _ _ hw => exact hw

theorem AvoidPath.trans {g : Graph} {A : Set Nat} {v u w : Nat}
    (h₁ : AvoidPath g A v u) (h₂ : AvoidPath g A u w) : AvoidPath g A v w := by
  induction h₂ with
  | refl _ => exact h₁
  | tail _ e hw ih => exact .tail ih e hw

theorem AvoidPath.anti {g : Graph} {A B : Set Nat} {v u : Nat}
    (hAB : A ⊆ B) (h : AvoidPath g B v u) : AvoidPath g A v u := by
  induction h with
  | refl hv => exact .refl _ (fun hv' => hv (hAB hv'))
  | tail _ e hw ih => exact .tail ih e (fun hw' => hw (hAB hw'))

/-- Last-occurrence decomposition: a path from `p` avoiding `A` either stops at
`p` or has a final segment that starts with an edge out of `p` and avoids
`A ∪ {p}` from then on. -/
theorem AvoidPath.head_cases {g : Graph} {A : Set Nat} {p u : Nat}
    (h : AvoidPath g A p u) :
    u = p ∨ ∃ q, Edge g p q ∧ AvoidPath g (insert p A) q u := by
  induction h with
  | refl _ => exact Or.inl rfl
  | tail hpath e hw ih =>
    rename_i u' w'
    by_cases hwp : w' = p
    · exact Or.inl hwp
    · rcases ih with heq | ⟨q, hq, hpath'⟩
      · subst heq
        exact Or.inr ⟨w', e, .refl w' (by simp [Set.mem_insert_iff, hwp, hw])⟩
      · exact Or.inr ⟨q, hq, .tail hpath' e (by simp [Set.mem_insert_iff, hwp, hw])⟩

/-- A path avoiding `A` either also avoids `A ∪ S`, or passes through some
element of `S` from which the rest of the path still avoids `A`. -/
theorem AvoidPath.split {g : Graph} {A S : Set Nat} {v u : Nat}
    (h : AvoidPath g A v u) :
    AvoidPath g (A ∪ S) v u ∨ ∃ x ∈ S, AvoidPath g A x u := by
  induction h with
  | refl hv =>
    by_cases hvS : v ∈ S
    · exact Or.inr ⟨v, hvS, .refl v hv⟩
    · exact Or.inl (.refl v (by simp [Set.mem_union, hv, hvS]))
  | tail hpath e hw ih =>
    rename_i u' w'
    by_cases hwS : w' ∈ S
    · exact Or.inr ⟨w', hwS, .refl w' hw⟩
    · rcases ih with h' | ⟨x, hxS, hpath'⟩
      · exact Or.inl (.tail h' e (by simp [Set.mem_union, hw, hwS]))
      · exact Or.inr ⟨x, hxS, .tail hpath' e hw⟩

/-- Sublemma for the loop-entry step of the DFS characterisation: paths from an
unvisited `p` are exactly: `p` itself, plus paths from a direct dependency of
`p` that additionally avoid `p`. -/
theorem avoidPath_from_unvisited {g : Graph} {A : Set Nat} {p : Nat} (hp : p ∉ A) :
    {u | AvoidPath g A p u} =
      insert p {u | ∃ q ∈ predsOf g p, AvoidPath g (insert p A) q u} := by
  ext u
  simp only [Set.mem_setOf_eq, Set.mem_insert_iff]
  constructor
  · intro h
    rcases h.head_cases with heq | ⟨q, hq, hpath⟩
    · exact Or.inl heq
    · exact Or.inr ⟨q, hq, hpath⟩
  · rintro (rfl | ⟨q, hq, hpath⟩)
    · exact .refl u hp
    · have hstep : AvoidPath g A p q := by
        have hq' : q ∉ A := fun hqA =>
          hpath.start_not_mem (Set.mem_insert_iff.mpr (Or.inr hqA))
        exact .tail (.refl p hp) hq hq'
      exact hstep.trans (hpath.anti (Set.subset_insert p A))

theorem dictGet_mem {α : Type} {l : List (Nat × α)} {k : Nat} {v : α}
    (h : dictGet l k = some v) : (k, v) ∈ l := by
  induction l with
  | nil => simp [dictGet] at h
  | cons kv rest ih =>
    obtain ⟨k', v'⟩ := kv
    simp only [dictGet] at h
    split at h
    · rename_i hk
      obtain rfl := Option.some.inj h
      subst hk
      exact List.mem_cons_self _ _
    · exact List.mem_cons_of_mem _ (ih h)

theorem mem_predsOf_graphNodes {g : Graph} {v d : Nat} (h : d ∈ predsOf g v) :
    d ∈ graphNodes g := by
  unfold predsOf at h
  match hv : dictGet g v with
  | none => rw [hv] at h; simp at h
  | some deps =>
    rw [hv] at h
    simp only [Option.getD_some] at h
    have hmem : (v, deps) ∈ g := dictGet_mem hv
    have : d ∈ (g.map Prod.snd).flatten :=
      List.mem_flatten.mpr ⟨deps, List.mem_map_of_mem Prod.snd hmem, h⟩
    simp only [graphNodes, allNodesList, List.mem_toFinset, List.mem_dedup,
      List.mem_append]
    exact Or.inr this

/-- Sublemma for the loop-continuation step: once the accumulator has absorbed
all paths from `p`, blocking on it does not change what the remaining loop
iterations can reach. -/
theorem avoidPath_absorb {g : Graph} {A : Set Nat} {p : Nat} (rest : List Nat) :
    (A ∪ {u | AvoidPath g A p u}) ∪
        {u | ∃ q ∈ rest, AvoidPath g (A ∪ {u | AvoidPath g A p u}) q u} =
      (A ∪ {u | AvoidPath g A p u}) ∪ {u | ∃ q ∈ rest, AvoidPath g A q u} := by
  apply Set.Subset.antisymm
  · apply Set.union_subset (Set.subset_union_left)
    intro u hu
    rcases hu with ⟨q, hq, hpath⟩
    exact Set.mem_union_right _ ⟨q, hq, hpath.anti Set.subset_union_left⟩
  · apply Set.union_subset (Set.subset_union_left)
    intro u hu
    rcases hu with ⟨q, hq, hpath⟩
    rcases hpath.split (S := {u | AvoidPath g A p u}) with h' | ⟨x, hx, hpath'⟩
    · exact Set.mem_union_right _ ⟨q, hq, h'⟩
    · exact Set.mem_union_left _ (Set.mem_union_right _ (hx.trans hpath'))

/-- The central characterisation of the `get_ancestors` recursion: run over a
list of direct predecessors with enough fuel, the loop succeeds and returns the
visited set extended by exactly the identifiers reachable from some listed
predecessor along a path avoiding the visited set. -/
theorem ancLoop_spec (fuel : Nat) :
    ∀ (g : Graph) (preds : List Nat) (A : Finset Nat),
      (∀ p ∈ preds, p ∈ graphNodes g) → (graphNodes g \ A).card ≤ fuel →
      ∃ r : Finset Nat, ancLoop (getAncestorsFuel fuel g) preds A = some r ∧
        (r : Set Nat) = ↑A ∪ {u | ∃ p ∈ preds, AvoidPath g ↑A p u} := by
  induction fuel using Nat.strong_induction_on with
  | _ fuel IH =>
    intro g preds A
    induction preds generalizing A with
    | nil =>
      intro _ _
      exact ⟨A, rfl, by simp [ancLoop]⟩
    | cons p rest ihRest =>
      intro hsub hcard
      by_cases hpA : p ∈ A
      · obtain ⟨r, hr, hspec⟩ :=
          ihRest A (fun q hq => hsub q (List.mem_cons_of_mem p hq)) hcard
        refine ⟨r, by simpa [ancLoop, hpA] using hr, ?_⟩
        rw [hspec]
        congr 1
        ext u
        simp only [Set.mem_setOf_eq, List.mem_cons]
        constructor
        · rintro ⟨q, hq, hpath⟩
          exact ⟨q, Or.inr hq, hpath⟩
        · rintro ⟨q, hq | hq, hpath⟩
          · subst hq
            exact absurd (Finset.mem_coe.mpr hpA) hpath.start_not_mem
          · exact ⟨q, hq, hpath⟩
      · have hpN : p ∈ graphNodes g := hsub p (List.mem_cons_self p rest)
        have hpdiff : p ∈ graphNodes g \ A := Finset.mem_sdiff.mpr ⟨hpN, hpA⟩
        have hcardpos : 0 < (graphNodes g \ A).card :=
          Finset.card_pos.mpr ⟨p, hpdiff⟩
        obtain ⟨f, rfl⟩ : ∃ f, fuel = f + 1 := ⟨fuel - 1, by omega⟩
        have hstep : (graphNodes g \ insert p A).card + 1 = (graphNodes g \ A).card := by
          rw [Finset.sdiff_insert, Finset.card_erase_of_mem hpdiff]
          omega
        obtain ⟨r1, hr1, hspec1⟩ :=
          IH f (Nat.lt_succ_self f) g (predsOf g p) (insert p A)
            (fun q hq => mem_predsOf_graphNodes hq) (by omega)
        have hr1big : insert p A ⊆ r1 := by
          rw [← Finset.coe_subset, hspec1]
          exact Set.subset_union_left
        have hunion : insert p A ∪ r1 = r1 := Finset.union_eq_right.mpr hr1big
        have hr1set : (r1 : Set Nat) = ↑A ∪ {u | AvoidPath g ↑A p u} := by
          rw [hspec1, Finset.coe_insert,
            avoidPath_from_unvisited (g := g) (fun hc => hpA (Finset.mem_coe.mp hc)),
            Set.insert_union, Set.union_insert]
        obtain ⟨r2, hr2, hspec2⟩ :=
          ihRest r1 (fun q hq => hsub q (List.mem_cons_of_mem p hq))
            (by
              have hmono : graphNodes g \ r1 ⊆ graphNodes g \ insert p A :=
                Finset.sdiff_subset_sdiff (le_refl _) hr1big
              have := Finset.card_le_card hmono
              omega)
        refine ⟨r2, ?_, ?_⟩
        · have hcall : getAncestorsFuel (f + 1) g p (insert p A) = some r1 := by
            simpa [getAncestorsFuel] using hr1
          simp only [ancLoop, hpA, if_false, hcall, hunion]
          exact hr2
        · rw [hspec2, hr1set, avoidPath_absorb]
          ext u
          simp only [Set.mem_union, Set.mem_setOf_eq, List.mem_cons]
          constructor
          · rintro ((hu | hu) | ⟨q, hq, hpath⟩)
            · exact Or.inl hu
            · exact Or.inr ⟨p, Or.inl rfl, hu⟩
            · exact Or.inr ⟨q, Or.inr hq, hpath⟩
          · rintro (hu | ⟨q, hq | hq, hpath⟩)
            · exact Or.inl (Or.inl hu)
            · subst hq
              exact Or.inl (Or.inr hpath)
            · exact Or.inr ⟨q, hq, hpath⟩

/-- With fuel exceeding the number of unvisited identifiers, the fueled
recursion of `get_ancestors` succeeds and computes the visited set plus
everything reachable from a direct dependency of `value` while avoiding the
visited set. -/
theorem getAncestorsFuel_spec {fuel : Nat} (g : Graph) (v : Nat) (A : Finset Nat)
    (h : (graphNodes g \ A).card < fuel) :
    ∃ r, getAncestorsFuel fuel g v A = some r ∧
      (r : Set Nat) = ↑A ∪ {u | ∃ q ∈ predsOf g v, AvoidPath g ↑A q u} := by
  obtain ⟨f, rfl⟩ : ∃ f, fuel = f + 1 := ⟨fuel - 1, by omega⟩
  obtain ⟨r, hr, hspec⟩ :=
    ancLoop_spec f g (predsOf g v) A (fun q hq => mem_predsOf_graphNodes hq) (by omega)
  exact ⟨r, by simpa [getAncestorsFuel] using hr, hspec⟩

/-- Characterisation of `get_ancestors` as a set: the seeded visited set, plus every identifier
reachable from a direct dependency of `value` along a path that avoids the
seeded set. -/
theorem get_ancestors_spec (g : Graph) (v : Nat) (A : Finset Nat) :
    (get_ancestors g v A : Set Nat) =
      ↑A ∪ {u | ∃ q ∈ predsOf g v, AvoidPath g ↑A q u} := by
  obtain ⟨r, hr, hspec⟩ := getAncestorsFuel_spec g v A (Nat.lt_succ_self _)
  unfold get_ancestors
  rw [hr]
  exact hspec

/-- Termination with an explicit bound: any fuel exceeding the number of
distinct still-unvisited identifiers computes the same value `get_ancestors`
returns; identifiers already in the visited set are never re-expanded. -/
theorem getAncestorsFuel_eq {fuel : Nat} (g : Graph) (v : Nat) (A : Finset Nat)
    (h : (graphNodes g \ A).card < fuel) :
    getAncestorsFuel fuel g v A = some (get_ancestors g v A) := by
  obtain ⟨r, hr, hspec⟩ := getAncestorsFuel_spec g v A h
  rw [hr]
  congr 1
  apply Finset.coe_injective
  rw [hspec, get_ancestors_spec]

theorem AvoidPath.to_reflTransGen {g : Graph} {A : Set Nat} {v u : Nat}
    (h : AvoidPath g A v u) : Relation.ReflTransGen (Edge g) v u := by
  induction h with
  | refl _ => exact .refl
  | tail _ e _ ih => exact .tail ih e

/-- Along a walk that starts outside an edge-closed set, either the endpoint
has fallen into the set, or the whole walk avoids it. -/
theorem reflTransGen_avoid_of_closed {g : Graph} {A : Set Nat} {q u : Nat}
    (hA : EdgeClosed g A) (h : Relation.ReflTransGen (Edge g) q u) :
    u ∈ A ∨ AvoidPath g A q u := by
  induction h with
  | refl =>
    by_cases hq : q ∈ A
    · exact Or.inl hq
    · exact Or.inr (.refl q hq)
  | tail _ e ih =>
    rename_i u' w _
    rcases ih with hu' | hpath
    · exact Or.inl (hA u' hu' w e)
    · by_cases hw : w ∈ A
      · exact Or.inl hw
      · exact Or.inr (.tail hpath e hw)

/-- Seeded with an edge-closed visited set, `get_ancestors` adds exactly the
identifiers transitively reachable from `value`. -/
theorem get_ancestors_closed_spec (g : Graph) (v : Nat) {A : Finset Nat}
    (hA : EdgeClosed g ↑A) :
    (get_ancestors g v A : Set Nat) =
      ↑A ∪ {u | Relation.TransGen (Edge g) v u} := by
  rw [get_ancestors_spec]
  ext u
  simp only [Set.mem_union, Set.mem_setOf_eq]
  constructor
  · rintro (hu | ⟨q, hq, hpath⟩)
    · exact Or.inl hu
    · exact Or.inr (Relation.TransGen.head' hq hpath.to_reflTransGen)
  · rintro (hu | hu)
    · exact Or.inl hu
    · obtain ⟨q, hq, hwalk⟩ := Relation.TransGen.head'_iff.mp hu
      rcases reflTransGen_avoid_of_closed hA hwalk with huA | hpath
      · exact Or.inl huA
      · exact Or.inr ⟨q, hq, hpath⟩

theorem edgeClosed_empty (g : Graph) : EdgeClosed g (∅ : Set Nat) :=
  fun x hx => absurd hx (Set.not_mem_empty x)

theorem edgeClosed_union {g : Graph} {A B : Set Nat}
    (hA : EdgeClosed g A) (hB : EdgeClosed g B) : EdgeClosed g (A ∪ B) := by
  rintro x (hx | hx) d hd
  · exact Or.inl (hA x hx d hd)
  · exact Or.inr (hB x hx d hd)

theorem edgeClosed_reach (g : Graph) (v : Nat) :
    EdgeClosed g {u | Relation.TransGen (Edge g) v u} :=
  fun x hx d hd => Relation.TransGen.tail hx hd

/-- With an empty seed, `get_ancestors` computes exactly the set of identifiers
reachable from `value` along one or more dependency edges. -/
theorem get_ancestors_empty_spec (g : Graph) (v : Nat) :
    (get_ancestors g v ∅ : Set Nat) = {u | Relation.TransGen (Edge g) v u} := by
  have h := get_ancestors_closed_spec g v (A := ∅)
    (by rw [Finset.coe_empty]; exact edgeClosed_empty g)
  simpa using h

/-- The accumulating fold of `get_metric_dependencies`: seeded with any
edge-closed set, it accumulates exactly the union of the reachability sets. -/
theorem foldl_get_ancestors_closed (g : Graph) :
    ∀ (ms : List Nat) (A : Finset Nat), EdgeClosed g ↑A →
      ((ms.foldl (fun deps m => deps ∪ get_ancestors g m deps) A : Finset Nat) : Set Nat) =
        ↑A ∪ ⋃ m ∈ ms, {u | Relation.TransGen (Edge g) m u} := by
  intro ms
  induction ms with
  | nil => intro A _; simp
  | cons m rest ih =>
    intro A hA
    have hstep : ((A ∪ get_ancestors g m A : Finset Nat) : Set Nat) =
        ↑A ∪ {u | Relation.TransGen (Edge g) m u} := by
      rw [Finset.coe_union, get_ancestors_closed_spec g m hA]
      ext u
      simp only [Set.mem_union, Set.mem_setOf_eq]
      tauto
    have hclosed : EdgeClosed g ((A ∪ get_ancestors g m A : Finset Nat) : Set Nat) := by
      rw [hstep]
      exact edgeClosed_union hA (edgeClosed_reach g m)
    have := ih (A ∪ get_ancestors g m A) hclosed
    rw [List.foldl_cons, this, hstep]
    ext u
    simp only [Set.mem_union, Set.mem_iUnion, Set.mem_setOf_eq, List.mem_cons]
    constructor
    · rintro ((hu | hu) | ⟨x, hx, hu⟩)
      · exact Or.inl hu
      · exact Or.inr ⟨m, Or.inl rfl, hu⟩
      · exact Or.inr ⟨x, Or.inr hx, hu⟩
    · rintro (hu | ⟨x, hx | hx, hu⟩)
      · exact Or.inl (Or.inl hu)
      · subst hx; exact Or.inl (Or.inr hu)
      · exact Or.inr ⟨x, hx, hu⟩

theorem mem_keys_of_dictGet {α : Type} {l : List (Nat × α)} {k : Nat} {v : α}
    (h : dictGet l k = some v) : k ∈ l.map Prod.fst :=
  List.mem_map_of_mem Prod.fst (dictGet_mem h)

theorem mem_allNodesList_of_edge {g : Graph} {n d : Nat} (e : Edge g n d) :
    n ∈ allNodesList g := by
  unfold Edge predsOf at e
  match hv : dictGet g n with
  | none => rw [hv] at e; simp at e
  | some deps =>
    simp only [allNodesList, List.mem_dedup, List.mem_append]
    exact Or.inl (mem_keys_of_dictGet hv)

theorem mem_allNodesList_of_predsOf {g : Graph} {n d : Nat} (h : d ∈ predsOf g n) :
    d ∈ allNodesList g := by
  have := mem_predsOf_graphNodes h
  simpa [graphNodes, List.mem_toFinset] using this

/-- Pigeonhole: a nonempty finite set of identifiers each of which has an
outgoing edge back into the set contains a cycle. -/
theorem cyclic_of_succ_closed {g : Graph} {P : List Nat} (hne : P ≠ [])
    (hstep : ∀ n ∈ P, ∃ d ∈ P, Edge g n d) : Cyclic g := by
  classical
  obtain ⟨x0, hx0⟩ := List.exists_mem_of_ne_nil P hne
  let f : Nat → Nat := fun n => if h : ∃ d ∈ P, Edge g n d then h.choose else n
  have hf : ∀ n ∈ P, f n ∈ P ∧ Edge g n (f n) := by
    intro n hn
    have h := hstep n hn
    simp only [f, dif_pos h]
    exact ⟨h.choose_spec.1, h.choose_spec.2⟩
  have hseq : ∀ k, f^[k] x0 ∈ P := by
    intro k
    induction k with
    | zero => simpa using hx0
    | succ k ih =>
      rw [Function.iterate_succ_apply']
      exact (hf _ ih).1
  have hedge : ∀ k, Edge g (f^[k] x0) (f^[k + 1] x0) := by
    intro k
    rw [Function.iterate_succ_apply']
    exact (hf _ (hseq k)).2
  have htrans : ∀ i k, Relation.TransGen (Edge g) (f^[i] x0) (f^[i + k + 1] x0) := by
    intro i k
    induction k with
    | zero => exact Relation.TransGen.single (hedge i)
    | succ k ih =>
      have : i + (k + 1) + 1 = (i + k + 1) + 1 := by omega
      rw [this]
      exact Relation.TransGen.tail ih (hedge (i + k + 1))
  have hcard : P.toFinset.card < (Finset.range (P.length + 1)).card := by
    rw [Finset.card_range]
    exact Nat.lt_succ_of_le P.toFinset_card_le
  obtain ⟨i, hi, j, hj, hij, heq⟩ :=
    Finset.exists_ne_map_eq_of_card_lt_of_maps_to hcard
      (fun k _ => List.mem_toFinset.mpr (hseq k))
  rcases Nat.lt_or_ge i j with hlt | hge
  · refine ⟨f^[i] x0, ?_⟩
    have := htrans i (j - i - 1)
    rw [show i + (j - i - 1) + 1 = j by omega] at this
    rw [← heq] at this
    exact this
  · have hlt : j < i := by omega
    refine ⟨f^[j] x0, ?_⟩
    have := htrans j (i - j - 1)
    rw [show j + (i - j - 1) + 1 = i by omega] at this
    rw [heq] at this
    exact this

/-- Invariants of a successful Kahn run: the emitted order is a permutation of
the done list plus the remainder, has no duplicates, and lists every
dependency of an emitted node before that node. -/
theorem kahnAux_ok_spec (g : Graph) :
    ∀ (fuel : Nat) (pending done order : List Nat),
      kahnAux g fuel pending done = .ok order →
      (done ++ pending).Nodup →
      (∀ n ∈ done, ∀ d ∈ predsOf g n, d ∈ done ∧ done.indexOf d < done.indexOf n) →
      order.Perm (done ++ pending) ∧ order.Nodup ∧
        (∀ n ∈ order, ∀ d ∈ predsOf g n, d ∈ order ∧ order.indexOf d < order.indexOf n) := by
  intro fuel
  induction fuel with
  | zero =>
    intro pending done order h hnd hcl
    simp only [kahnAux] at h
    split at h
    · rename_i hemp
      obtain rfl := Except.ok.inj h
      rw [List.isEmpty_iff] at hemp
      subst hemp
      refine ⟨by simp, by simpa using hnd, ?_⟩
      intro n hn d hd
      exact hcl n hn d hd
    · exact absurd h (by simp)
  | succ fuel ih =>
    intro pending done order h hnd hcl
    simp only [kahnAux] at h
    split at h
    · rename_i hemp
      obtain rfl := Except.ok.inj h
      rw [List.isEmpty_iff] at hemp
      subst hemp
      refine ⟨by simp, by simpa using hnd, ?_⟩
      intro n hn d hd
      exact hcl n hn d hd
    · rename_i hpne
      split at h
      · exact absurd h (by simp)
      · rename_i hrne
        set p : Nat → Bool := fun n => decide (∀ d ∈ predsOf g n, d ∈ done) with hp
        have hpart : (pending.filter p ++ pending.filter (fun n => !p n)).Perm pending :=
          List.filter_append_perm p pending
        have hpermD :
            (done ++ (pending.filter p ++ pending.filter (fun n => !p n))).Perm
              (done ++ pending) := List.Perm.append_left done hpart
        have hdisj : List.Disjoint done pending := List.disjoint_of_nodup_append hnd
        have hnd' :
            ((done ++ pending.filter p) ++ pending.filter (fun n => !p n)).Nodup := by
          rw [List.append_assoc]
          exact hpermD.nodup_iff.mpr hnd
        have hcl' : ∀ n ∈ done ++ pending.filter p, ∀ d ∈ predsOf g n,
            d ∈ done ++ pending.filter p ∧
              (done ++ pending.filter p).indexOf d <
                (done ++ pending.filter p).indexOf n := by
          intro n hn d hd
          rcases List.mem_append.mp hn with hnD | hnR
          · obtain ⟨hdD, hidx⟩ := hcl n hnD d hd
            refine ⟨List.mem_append_left _ hdD, ?_⟩
            rw [List.indexOf_append_of_mem hdD, List.indexOf_append_of_mem hnD]
            exact hidx
          · have hnP := (List.mem_filter.mp hnR).1
            have hall : ∀ d' ∈ predsOf g n, d' ∈ done := by
              have := (List.mem_filter.mp hnR).2
              rw [hp] at this
              exact of_decide_eq_true this
            have hdD : d ∈ done := hall d hd
            have hnD : n ∉ done := fun hnd' => hdisj hnd' hnP
            refine ⟨List.mem_append_left _ hdD, ?_⟩
            rw [List.indexOf_append_of_mem hdD, List.indexOf_append_of_not_mem hnD]
            have : done.indexOf d < done.length := List.indexOf_lt_length.mpr hdD
            omega
        obtain ⟨hperm, hnodup, hprop⟩ := ih _ _ order h hnd' hcl'
        refine ⟨?_, hnodup, hprop⟩
        have h1 := hperm
        rw [List.append_assoc] at h1
        exact h1.trans hpermD

/-- The properties of a successful full topological sort: a duplicate-free
permutation of every identifier the graph mentions, with each dependency
ranked strictly before its dependent. -/
theorem staticOrder_ok_spec {g : Graph} {order : List Nat}
    (h : staticOrder g = .ok order) :
    order.Perm (allNodesList g) ∧ order.Nodup ∧
      (∀ n ∈ order, ∀ d ∈ predsOf g n, d ∈ order ∧ order.indexOf d < order.indexOf n) := by
  have hnd : (([] : List Nat) ++ allNodesList g).Nodup := by
    simpa [allNodesList] using List.nodup_dedup _
  obtain ⟨hperm, hnodup, hprop⟩ :=
    kahnAux_ok_spec g (allNodesList g).length (allNodesList g) [] order h hnd
      (by intro n hn; simp at hn)
  exact ⟨by simpa using hperm, hnodup, hprop⟩

/-- Kahn completeness: on an acyclic graph the sort always succeeds, because a
stuck nonempty remainder would exhibit a cycle by pigeonhole. -/
theorem kahnAux_acyclic_ok {g : Graph} (hacyc : ¬ Cyclic g) :
    ∀ (fuel : Nat) (pending done : List Nat),
      pending.length ≤ fuel →
      (∀ n ∈ pending, ∀ d ∈ predsOf g n, d ∈ done ∨ d ∈ pending) →
      ∃ order, kahnAux g fuel pending done = .ok order := by
  intro fuel
  induction fuel with
  | zero =>
    intro pending done hlen _
    have : pending = [] := List.eq_nil_of_length_eq_zero (by omega)
    subst this
    exact ⟨done, by simp [kahnAux]⟩
  | succ fuel ih =>
    intro pending done hlen hpreds
    by_cases hemp : pending.isEmpty
    · exact ⟨done, by simp [kahnAux, hemp]⟩
    · set p : Nat → Bool := fun n => decide (∀ d ∈ predsOf g n, d ∈ done) with hp
      have hrne : ¬ (pending.filter p).isEmpty := by
        intro hready
        rw [List.isEmpty_iff] at hready
        apply hacyc
        apply cyclic_of_succ_closed (P := pending)
          (by intro hnil; rw [hnil] at hemp; simp at hemp)
        intro n hn
        have hnp : p n = false := by
          by_contra hcon
          have : n ∈ pending.filter p :=
            List.mem_filter.mpr ⟨hn, by revert hcon; cases p n <;> simp⟩
          rw [hready] at this
          simp at this
        rw [hp] at hnp
        have : ¬ ∀ d ∈ predsOf g n, d ∈ done := of_decide_eq_false hnp
        push_neg at this
        obtain ⟨d, hd, hdnd⟩ := this
        rcases hpreds n hn d hd with hdD | hdP
        · exact absurd hdD hdnd
        · exact ⟨d, hdP, hd⟩
      have hlens : (pending.filter p).length +
          (pending.filter (fun n => !p n)).length = pending.length := by
        have := (List.filter_append_perm p pending).length_eq
        simpa [List.length_append] using this
      have hrpos : 0 < (pending.filter p).length := by
        rcases Nat.eq_zero_or_pos (pending.filter p).length with hz | hpos
        · exact absurd (by rwa [List.isEmpty_iff, ← List.length_eq_zero]) hrne
        · exact hpos
      have hlen' : (pending.filter (fun n => !p n)).length ≤ fuel := by omega
      have hpreds' : ∀ n ∈ pending.filter (fun n => !p n), ∀ d ∈ predsOf g n,
          d ∈ done ++ pending.filter p ∨ d ∈ pending.filter (fun n => !p n) := by
        intro n hn d hd
        have hnP := (List.mem_filter.mp hn).1
        rcases hpreds n hnP d hd with hdD | hdP
        · exact Or.inl (List.mem_append_left _ hdD)
        · by_cases hdp : p d = true
          · exact Or.inl (List.mem_append_right _ (List.mem_filter.mpr ⟨hdP, hdp⟩))
          · refine Or.inr (List.mem_filter.mpr ⟨hdP, ?_⟩)
            revert hdp; cases p d <;> simp
      obtain ⟨order, horder⟩ := ih _ (done ++ pending.filter p) hlen' hpreds'
      refine ⟨order, ?_⟩
      simp only [kahnAux, hemp, if_false]
      rw [if_neg hrne]
      exact horder

/-- Kahn on a cyclic graph always reports the cycle: no node lying on a cycle
can ever become ready, so the pending list never empties. -/
theorem kahnAux_cyclic_error {g : Graph} {v : Nat}
    (hcyc : Relation.TransGen (Edge g) v v) :
    ∀ (fuel : Nat) (pending done : List Nat),
      (∀ n, Relation.TransGen (Edge g) n n → n ∈ pending) →
      (∀ n, Relation.TransGen (Edge g) n n → n ∉ done) →
      kahnAux g fuel pending done = .error .cycleError := by
  intro fuel
  induction fuel with
  | zero =>
    intro pending done hpend _
    have : ¬ pending.isEmpty := by
      rw [List.isEmpty_iff]
      intro hnil
      have := hpend v hcyc
      rw [hnil] at this
      simp at this
    simp [kahnAux, this]
  | succ fuel ih =>
    intro pending done hpend hdone
    have hemp : ¬ pending.isEmpty := by
      rw [List.isEmpty_iff]
      intro hnil
      have := hpend v hcyc
      rw [hnil] at this
      simp at this
    have hnotready : ∀ n, Relation.TransGen (Edge g) n n →
        decide (∀ d ∈ predsOf g n, d ∈ done) = false := by
      intro n hn
      obtain ⟨d, hd, hwalk⟩ := Relation.TransGen.head'_iff.mp hn
      have hdcyc : Relation.TransGen (Edge g) d d := Relation.TransGen.tail' hwalk hd
      apply decide_eq_false
      intro hall
      exact hdone d hdcyc (hall d hd)
    by_cases hrne :
        (pending.filter (fun n => decide (∀ d ∈ predsOf g n, d ∈ done))).isEmpty
    · simp [kahnAux, hemp, hrne]
    · have hunfold : kahnAux g (fuel + 1) pending done =
          kahnAux g fuel
            (pending.filter (fun n => !decide (∀ d ∈ predsOf g n, d ∈ done)))
            (done ++ pending.filter (fun n => decide (∀ d ∈ predsOf g n, d ∈ done))) := by
        simp [kahnAux, hemp, hrne]
      rw [hunfold]
      apply ih
      · intro n hn
        refine List.mem_filter.mpr ⟨hpend n hn, ?_⟩
        rw [hnotready n hn]
        simp
      · intro n hn
        rw [List.mem_append]
        push_neg
        refine ⟨hdone n hn, ?_⟩
        intro hmem
        have hdec := (List.mem_filter.mp hmem).2
        rw [hnotready n hn] at hdec
        simp at hdec

/-- On a cyclic dependency graph the full topological sort raises CycleError. -/
theorem staticOrder_cyclic {g : Graph} (hcyc : Cyclic g) :
    staticOrder g = .error .cycleError := by
  obtain ⟨v, hv⟩ := hcyc
  apply kahnAux_cyclic_error hv
  · intro n hn
    obtain ⟨d, hd, _⟩ := Relation.TransGen.head'_iff.mp hn
    exact mem_allNodesList_of_edge hd
  · intro n _
    simp

/-- On an acyclic dependency graph the full topological sort succeeds. -/
theorem staticOrder_acyclic {g : Graph} (hacyc : ¬ Cyclic g) :
    ∃ order, staticOrder g = .ok order := by
  apply kahnAux_acyclic_ok hacyc
  · exact le_refl _
  · intro n _ d hd
    exact Or.inr (mem_allNodesList_of_predsOf hd)

theorem dictGet_dictInsert_self {α : Type} (l : List (Nat × α)) (k : Nat) (v : α) :
    dictGet (dictInsert l k v) k = some v := by
  induction l with
  | nil => simp [dictInsert, dictGet]
  | cons kv rest ih =>
    obtain ⟨k', v'⟩ := kv
    by_cases hk : k' = k
    · subst hk
      simp [dictInsert, dictGet]
    · simp [dictInsert, dictGet, hk, ih]

theorem dictGet_dictInsert_ne {α : Type} (l : List (Nat × α)) {k k' : Nat} (v : α)
    (h : k' ≠ k) : dictGet (dictInsert l k v) k' = dictGet l k' := by
  induction l with
  | nil => simp [dictInsert, dictGet, Ne.symm h]
  | cons kv rest ih =>
    obtain ⟨k₀, v₀⟩ := kv
    by_cases hk : k₀ = k
    · subst hk
      simp [dictInsert, dictGet, Ne.symm h]
    · simp only [dictInsert, if_neg hk, dictGet]
      split
      · rfl
      · exact ih

theorem gatherDeps_mono {acc res : List (Nat × Column)}
    (hpersist : ∀ k w, dictGet acc k = some w → dictGet res k = some w) :
    ∀ {deps : List Nat} {vs : List Column},
      gatherDeps acc deps = .ok vs → gatherDeps res deps = .ok vs := by
  intro deps
  induction deps with
  | nil => intro vs h; simpa [gatherDeps] using h
  | cons d rest ih =>
    intro vs h
    simp only [gatherDeps] at h ⊢
    match hd : dictGet acc d with
    | none => rw [hd] at h; exact absurd h (by simp)
    | some w =>
      rw [hd] at h
      rw [hpersist d w hd]
      match hr : gatherDeps acc rest with
      | .error e => rw [hr] at h; exact absurd h (by simp)
      | .ok ws =>
        rw [hr] at h
        rw [ih hr]
        exact h

/-- When the metric has no computing function, `_calculate_metric` raises
`KeyError` naming the metric (the first lookup in its body). -/
theorem calculate_metric_missing_fn {mg : MetricGraph} {m : Nat}
    (h : dictGet mg.metric_functions m = none) (acc : List (Nat × Column)) :
    mg.calculate_metric m acc = .error (.keyError m) := by
  simp [MetricGraph.calculate_metric, h]

/-- Evaluation of `_calculate_metric` once both lookups succeed. -/
theorem calculate_metric_eq {mg : MetricGraph} {m : Nat} {f : List Column → Column}
    {deps : List Nat} (hf : dictGet mg.metric_functions m = some f)
    (hg : dictGet mg.dependency_graph m = some deps) (acc : List (Nat × Column)) :
    mg.calculate_metric m acc =
      match gatherDeps acc deps with
      | .error e => .error e
      | .ok data => .ok (f data) := by
  simp [MetricGraph.calculate_metric, hf, hg]

/-- Calling `_calculate_metric` with a function but no dependency entry raises
`KeyError` naming the metric (graph.py line 86). -/
theorem calculate_metric_missing_graph {mg : MetricGraph} {m : Nat}
    {f : List Column → Column} (hf : dictGet mg.metric_functions m = some f)
    (hg : dictGet mg.dependency_graph m = none) (acc : List (Nat × Column)) :
    mg.calculate_metric m acc = .error (.keyError m) := by
  simp [MetricGraph.calculate_metric, hf, hg]

/-- Resolved metric values persist: a successful `_calculate_metric` call keeps
succeeding with the same value over any extension of the working set. -/
theorem calculate_metric_mono {mg : MetricGraph} {m : Nat}
    {acc res : List (Nat × Column)} {v : Column}
    (hpersist : ∀ k w, dictGet acc k = some w → dictGet res k = some w)
    (h : mg.calculate_metric m acc = .ok v) : mg.calculate_metric m res = .ok v := by
  rcases hf : dictGet mg.metric_functions m with _ | f
  · rw [calculate_metric_missing_fn hf] at h
    exact absurd h (by simp)
  · rcases hg : dictGet mg.dependency_graph m with _ | deps
    · rw [calculate_metric_missing_graph hf hg] at h
      exact absurd h (by simp)
    · rw [calculate_metric_eq hf hg] at h ⊢
      rcases hd : gatherDeps acc deps with e | vs
      · rw [hd] at h
        exact absurd h (by simp)
      · rw [hd] at h
        rw [gatherDeps_mono hpersist hd]
        exact h

/-- What a successful `calculate_metrics` walk guarantees, metric by metric:
earlier entries persist, the working set holds exactly the walked identifiers,
a requested or column-less metric's entry is its function applied to resolved
dependencies, and an unrequested present-column metric's entry is the table
column. -/
theorem calcWalk_ok_spec (mg : MetricGraph) (df : DataFrame) (requested : List Nat) :
    ∀ (order : List Nat) (acc res : List (Nat × Column)),
      mg.calcWalk df requested order acc = .ok res →
      order.Nodup →
      (∀ m ∈ order, dictGet acc m = none) →
      (∀ k w, dictGet acc k = some w → dictGet res k = some w) ∧
      (∀ k, (∃ w, dictGet res k = some w) ↔
        ((∃ w, dictGet acc k = some w) ∨ k ∈ order)) ∧
      (∀ m ∈ order, (dictGet df m = none ∨ m ∈ requested) →
        ∃ v, mg.calculate_metric m res = .ok v ∧ dictGet res m = some v) ∧
      (∀ m ∈ order, ∀ value, dictGet df m = some value → m ∉ requested →
        dictGet res m = some value) := by
  intro order
  induction order with
  | nil =>
    intro acc res h _ _
    simp only [MetricGraph.calcWalk] at h
    obtain rfl := Except.ok.inj h
    refine ⟨fun k w hw => hw, fun k => by simp, ?_, ?_⟩
    · intro m hm; simp at hm
    · intro m hm; simp at hm
  | cons m rest ih =>
    intro acc res h hnd hnone
    have hmnotrest : m ∉ rest := (List.nodup_cons.mp hnd).1
    have hndrest : rest.Nodup := (List.nodup_cons.mp hnd).2
    have haccm : dictGet acc m = none := hnone m (List.mem_cons_self m rest)
    simp only [MetricGraph.calcWalk] at h
    -- common continuation helper applied per branch
    have hcont : ∀ (v : Column),
        mg.calcWalk df requested rest (dictInsert acc m v) = .ok res →
        (∀ k w, dictGet acc k = some w → dictGet res k = some w) ∧
        (dictGet res m = some v) ∧
        (∀ k, (∃ w, dictGet res k = some w) ↔
          ((∃ w, dictGet acc k = some w) ∨ k ∈ m :: rest)) ∧
        (∀ m' ∈ rest, (dictGet df m' = none ∨ m' ∈ requested) →
          ∃ w, mg.calculate_metric m' res = .ok w ∧ dictGet res m' = some w) ∧
        (∀ m' ∈ rest, ∀ value, dictGet df m' = some value → m' ∉ requested →
          dictGet res m' = some value) := by
      intro v hwalk
      have hnone' : ∀ m' ∈ rest, dictGet (dictInsert acc m v) m' = none := by
        intro m' hm'
        have hne : m' ≠ m := fun he => hmnotrest (he ▸ hm')
        rw [dictGet_dictInsert_ne acc v hne]
        exact hnone m' (List.mem_cons_of_mem m hm')
      obtain ⟨Hpersist, Hiff, Hcomp, Htake⟩ := ih (dictInsert acc m v) res hwalk hndrest hnone'
      have hpersist0 : ∀ k w, dictGet acc k = some w → dictGet res k = some w := by
        intro k w hk
        have hne : k ≠ m := fun he => by rw [he, haccm] at hk; exact absurd hk (by simp)
        exact Hpersist k w (by rwa [dictGet_dictInsert_ne acc v hne])
      refine ⟨hpersist0, Hpersist m v (dictGet_dictInsert_self acc m v), ?_, Hcomp, Htake⟩
      intro k
      rw [Hiff k]
      by_cases hk : k = m
      · subst hk
        simp [dictGet_dictInsert_self acc k v]
      · rw [dictGet_dictInsert_ne acc v hk]
        simp only [List.mem_cons]
        constructor
        · rintro (hw | hw)
          · exact Or.inl hw
          · exact Or.inr (Or.inr hw)
        · rintro (hw | hk' | hw)
          · exact Or.inl hw
          · exact absurd hk' hk
          · exact Or.inr hw
    split at h
    · -- dictGet df m = none: compute branch
      rename_i hdf
      split at h
      · simp at h
      · rename_i v hv
        obtain ⟨hpersist0, hresm, hiff, Hcomp, Htake⟩ := hcont v h
        have hcomputed : mg.calculate_metric m res = .ok v :=
          calculate_metric_mono hpersist0 hv
        refine ⟨hpersist0, hiff, ?_, ?_⟩
        · intro m' hm' hside
          rcases List.mem_cons.mp hm' with rfl | hm'
          · exact ⟨v, hcomputed, hresm⟩
          · exact Hcomp m' hm' hside
        · intro m' hm' value hval hreq
          rcases List.mem_cons.mp hm' with rfl | hm'
          · rw [hdf] at hval; exact absurd hval (by simp)
          · exact Htake m' hm' value hval hreq
    · -- dictGet df m = some value
      rename_i value hdf
      split at h
      · -- m requested: compute branch
        rename_i hreq
        split at h
        · simp at h
        · rename_i v hv
          obtain ⟨hpersist0, hresm, hiff, Hcomp, Htake⟩ := hcont v h
          have hcomputed : mg.calculate_metric m res = .ok v :=
            calculate_metric_mono hpersist0 hv
          refine ⟨hpersist0, hiff, ?_, ?_⟩
          · intro m' hm' hside
            rcases List.mem_cons.mp hm' with rfl | hm'
            · exact ⟨v, hcomputed, hresm⟩
            · exact Hcomp m' hm' hside
          · intro m' hm' value' hval hreq'
            rcases List.mem_cons.mp hm' with rfl | hm'
            · exact absurd hreq hreq'
            · exact Htake m' hm' value' hval hreq'
      · -- m not requested: take the table value
        rename_i hreq
        obtain ⟨hpersist0, hresm, hiff, Hcomp, Htake⟩ := hcont value h
        refine ⟨hpersist0, hiff, ?_, ?_⟩
        · intro m' hm' hside
          rcases List.mem_cons.mp hm' with rfl | hm'
          · rcases hside with hside | hside
            · rw [hdf] at hside; exact absurd hside (by simp)
            · exact absurd hside hreq
          · exact Hcomp m' hm' hside
        · intro m' hm' value' hval hreq'
          rcases List.mem_cons.mp hm' with rfl | hm'
          · rw [hdf] at hval
            obtain rfl := Option.some.inj hval
            exact hresm
          · exact Htake m' hm' value' hval hreq'

/-- What a successful `recalculate_metrics` walk guarantees: every walked
metric's entry is its computing function applied to resolved dependency
values; the table is never consulted. -/
theorem recalcWalk_ok_spec (mg : MetricGraph) :
    ∀ (order : List Nat) (acc res : List (Nat × Column)),
      mg.recalcWalk order acc = .ok res →
      order.Nodup →
      (∀ m ∈ order, dictGet acc m = none) →
      (∀ k w, dictGet acc k = some w → dictGet res k = some w) ∧
      (∀ k, (∃ w, dictGet res k = some w) ↔
        ((∃ w, dictGet acc k = some w) ∨ k ∈ order)) ∧
      (∀ m ∈ order, ∃ v, mg.calculate_metric m res = .ok v ∧ dictGet res m = some v) := by
  intro order
  induction order with
  | nil =>
    intro acc res h _ _
    simp only [MetricGraph.recalcWalk] at h
    obtain rfl := Except.ok.inj h
    refine ⟨fun k w hw => hw, fun k => by simp, ?_⟩
    intro m hm; simp at hm
  | cons m rest ih =>
    intro acc res h hnd hnone
    have hmnotrest : m ∉ rest := (List.nodup_cons.mp hnd).1
    have hndrest : rest.Nodup := (List.nodup_cons.mp hnd).2
    have haccm : dictGet acc m = none := hnone m (List.mem_cons_self m rest)
    simp only [MetricGraph.recalcWalk] at h
    split at h
    · simp at h
    · rename_i v hv
      have hnone' : ∀ m' ∈ rest, dictGet (dictInsert acc m v) m' = none := by
        intro m' hm'
        have hne : m' ≠ m := fun he => hmnotrest (he ▸ hm')
        rw [dictGet_dictInsert_ne acc v hne]
        exact hnone m' (List.mem_cons_of_mem m hm')
      obtain ⟨Hpersist, Hiff, Hcomp⟩ := ih (dictInsert acc m v) res h hndrest hnone'
      have hpersist0 : ∀ k w, dictGet acc k = some w → dictGet res k = some w := by
        intro k w hk
        have hne : k ≠ m := fun he => by rw [he, haccm] at hk; exact absurd hk (by simp)
        exact Hpersist k w (by rwa [dictGet_dictInsert_ne acc v hne])
      have hresm : dictGet res m = some v := Hpersist m v (dictGet_dictInsert_self acc m v)
      have hcomputed : mg.calculate_metric m res = .ok v :=
        calculate_metric_mono hpersist0 hv
      refine ⟨hpersist0, ?_, ?_⟩
      · intro k
        rw [Hiff k]
        by_cases hk : k = m
        · subst hk
          simp [dictGet_dictInsert_self acc k v]
        · rw [dictGet_dictInsert_ne acc v hk]
          simp only [List.mem_cons]
          constructor
          · rintro (hw | hw)
            · exact Or.inl hw
            · exact Or.inr (Or.inr hw)
          · rintro (hw | hk' | hw)
            · exact Or.inl hw
            · exact absurd hk' hk
            · exact Or.inr hw
      · intro m' hm'
        rcases List.mem_cons.mp hm' with rfl | hm'
        · exact ⟨v, hcomputed, hresm⟩
        · exact Hcomp m' hm'

/-- Splitting a `calculate_metrics` walk at an append boundary. -/
theorem calcWalk_append (mg : MetricGraph) (df : DataFrame) (requested : List Nat) :
    ∀ (l1 l2 : List Nat) (acc : List (Nat × Column)),
      mg.calcWalk df requested (l1 ++ l2) acc =
        match mg.calcWalk df requested l1 acc with
        | .error e => .error e
        | .ok cal => mg.calcWalk df requested l2 cal := by
  intro l1
  induction l1 with
  | nil => intro l2 acc; simp [MetricGraph.calcWalk]
  | cons m rest ih =>
    intro l2 acc
    simp only [List.cons_append, MetricGraph.calcWalk]
    split
    · split
      · simp
      · exact ih l2 _
    · split
      · split
        · simp
        · exact ih l2 _
      · exact ih l2 _

/-- Splitting a `recalculate_metrics` walk at an append boundary. -/
theorem recalcWalk_append (mg : MetricGraph) :
    ∀ (l1 l2 : List Nat) (acc : List (Nat × Column)),
      mg.recalcWalk (l1 ++ l2) acc =
        match mg.recalcWalk l1 acc with
        | .error e => .error e
        | .ok cal => mg.recalcWalk l2 cal := by
  intro l1
  induction l1 with
  | nil => intro l2 acc; simp [MetricGraph.recalcWalk]
  | cons m rest ih =>
    intro l2 acc
    simp only [List.cons_append, MetricGraph.recalcWalk]
    split
    · simp
    · exact ih l2 _

/-- When the walk reaches a metric that must be computed (no same-named column,
or requested) whose computation fails, the whole walk fails with that error. -/
theorem calcWalk_error_at (mg : MetricGraph) (df : DataFrame) (requested : List Nat)
    {pre : List Nat} (m : Nat) (post : List Nat) {acc cal : List (Nat × Column)}
    {e : CalcError} (hpre : mg.calcWalk df requested pre acc = .ok cal)
    (hside : dictGet df m = none ∨ m ∈ requested)
    (herr : mg.calculate_metric m cal = .error e) :
    mg.calcWalk df requested (pre ++ m :: post) acc = .error e := by
  rw [calcWalk_append, hpre]
  simp only [MetricGraph.calcWalk]
  rcases hside with hside | hside
  · simp [hside, herr]
  · rcases hdf : dictGet df m with _ | value
    · simp [herr]
    · simp [hside, herr]

/-- When the recalculation walk reaches a metric whose computation fails, the
whole walk fails with that error. -/
theorem recalcWalk_error_at (mg : MetricGraph) {pre : List Nat} (m : Nat)
    (post : List Nat) {acc cal : List (Nat × Column)} {e : CalcError}
    (hpre : mg.recalcWalk pre acc = .ok cal)
    (herr : mg.calculate_metric m cal = .error e) :
    mg.recalcWalk (pre ++ m :: post) acc = .error e := by
  rw [recalcWalk_append, hpre]
  simp only [MetricGraph.recalcWalk]
  simp [herr]

/-- What a successful final comprehension guarantees: the result binds exactly
the requested identifiers (plus whatever the accumulator held), each to its
value in the working set. -/
theorem buildResult_ok_spec (calculated : List (Nat × Column)) :
    ∀ (ms : List Nat) (acc res : List (Nat × Column)),
      buildResult calculated ms acc = .ok res →
      (∀ k, (∃ w, dictGet res k = some w) ↔
        ((∃ w, dictGet acc k = some w) ∨ k ∈ ms)) ∧
      (∀ k w, dictGet acc k = some w → k ∉ ms → dictGet res k = some w) ∧
      (∀ m ∈ ms, ∃ v, dictGet calculated m = some v ∧ dictGet res m = some v) := by
  intro ms
  induction ms with
  | nil =>
    intro acc res h
    simp only [buildResult] at h
    obtain rfl := Except.ok.inj h
    refine ⟨fun k => by simp, fun k w hw _ => hw, ?_⟩
    intro m hm; simp at hm
  | cons m rest ih =>
    intro acc res h
    simp only [buildResult] at h
    split at h
    · simp at h
    · rename_i v hv
      obtain ⟨Hiff, Hpersist, Hval⟩ := ih (dictInsert acc m v) res h
      refine ⟨?_, ?_, ?_⟩
      · intro k
        rw [Hiff k]
        by_cases hk : k = m
        · subst hk
          simp [dictGet_dictInsert_self acc k v]
        · rw [dictGet_dictInsert_ne acc v hk]
          simp only [List.mem_cons]
          constructor
          · rintro (hw | hw)
            · exact Or.inl hw
            · exact Or.inr (Or.inr hw)
          · rintro (hw | hk' | hw)
            · exact Or.inl hw
            · exact absurd hk' hk
            · exact Or.inr hw
      · intro k w hk hkm
        have hne : k ≠ m := fun he => hkm (he ▸ List.mem_cons_self m rest)
        have hknotrest : k ∉ rest := fun hk' => hkm (List.mem_cons_of_mem m hk')
        exact Hpersist k w (by rwa [dictGet_dictInsert_ne acc v hne]) hknotrest
      · intro m' hm'
        rcases List.mem_cons.mp hm' with rfl | hm'
        · by_cases hm'rest : m' ∈ rest
          · exact Hval m' hm'rest
          · exact ⟨v, hv, Hpersist m' v (dictGet_dictInsert_self acc m' v) hm'rest⟩
        · exact Hval m' hm'

/-- The sorted enumeration of a multiset has the same elements. -/
theorem multisetSortedList_coe (s : Multiset Nat) :
    (multisetSortedList s : Multiset Nat) = s := by
  induction s using Quot.inductionOn with
  | _ l => exact Quot.sound (List.perm_insertionSort _ l)

theorem mem_finsetToList {s : Finset Nat} {m : Nat} :
    m ∈ finsetToList s ↔ m ∈ s := by
  have h := multisetSortedList_coe s.val
  constructor
  · intro hm
    have : m ∈ (multisetSortedList s.val : Multiset Nat) := Multiset.mem_coe.mpr hm
    rw [h] at this
    exact Finset.mem_def.mpr this
  · intro hm
    have : m ∈ (multisetSortedList s.val : Multiset Nat) := by
      rw [h]
      exact Finset.mem_def.mp hm
    exact Multiset.mem_coe.mp this

theorem nodup_finsetToList (s : Finset Nat) : (finsetToList s).Nodup := by
  have := multisetSortedList_coe s.val
  have hnd : (multisetSortedList s.val : Multiset Nat).Nodup := by
    rw [this]; exact s.nodup
  simpa [Multiset.coe_nodup] using hnd

/-- In a list sorted by a rank function, an element of strictly smaller rank
appears strictly earlier. -/
theorem sorted_indexOf_lt {l : List Nat} {f : Nat → Nat}
    (hs : l.Sorted (fun a b => f a ≤ f b)) {a b : Nat}
    (ha : a ∈ l) (hb : b ∈ l) (hf : f a < f b) :
    l.indexOf a < l.indexOf b := by
  by_contra hcon
  push_neg at hcon
  have hia : l.indexOf a < l.length := List.indexOf_lt_length.mpr ha
  have hib : l.indexOf b < l.length := List.indexOf_lt_length.mpr hb
  rcases Nat.lt_or_ge (l.indexOf b) (l.indexOf a) with hlt | hge
  · have := hs.rel_get_of_lt (a := ⟨l.indexOf b, hib⟩) (b := ⟨l.indexOf a, hia⟩) hlt
    rw [List.indexOf_get, List.indexOf_get] at this
    omega
  · have heq : l.indexOf a = l.indexOf b := by omega
    have hab : a = b := by
      have h1 := List.indexOf_get (a := a) (l := l) hia
      have h2 := List.indexOf_get (a := b) (l := l) hib
      rw [← h1, ← h2]
      congr 1
      exact Fin.ext heq
    rw [hab] at hf
    omega

/-- What a successful `_sort_metrics_topologically` call guarantees: the full
order exists, contains every input metric, and the output is the input
permuted into rank order. -/
theorem sort_topo_ok_spec {mg : MetricGraph} {metrics out : List Nat}
    (h : mg.sort_metrics_topologically metrics = .ok out) :
    ∃ order, staticOrder mg.dependency_graph = .ok order ∧
      (∀ m ∈ metrics, m ∈ order) ∧
      out.Perm metrics ∧
      out.Sorted (fun a b => order.indexOf a ≤ order.indexOf b) := by
  simp only [MetricGraph.sort_metrics_topologically,
    MetricGraph.topologically_sorted_metrics] at h
  split at h
  · exact absurd h (by simp)
  · rename_i order hso
    split at h
    · exact absurd h (by simp)
    · rename_i hfind
      obtain rfl := Except.ok.inj h
      refine ⟨order, hso, ?_, ?_, ?_⟩
      · intro m hm
        have := List.find?_eq_none.mp hfind m hm
        simpa using this
      · exact List.perm_insertionSort _ metrics
      · haveI : IsTotal Nat (fun a b => order.indexOf a ≤ order.indexOf b) :=
          ⟨fun a b => le_total _ _⟩
        haveI : IsTrans Nat (fun a b => order.indexOf a ≤ order.indexOf b) :=
          ⟨fun a b c hab hbc => le_trans hab hbc⟩
        exact List.sorted_insertionSort _ metrics

/-- A successful subset ranking puts every in-subset dependency strictly
before its in-subset dependent. -/
theorem sort_topo_respects_edges {mg : MetricGraph} {metrics out : List Nat}
    (h : mg.sort_metrics_topologically metrics = .ok out) :
    ∀ m d, Edge mg.dependency_graph m d → m ∈ metrics → d ∈ metrics →
      d ∈ out ∧ m ∈ out ∧ out.indexOf d < out.indexOf m := by
  obtain ⟨order, hso, hsub, hperm, hsorted⟩ := sort_topo_ok_spec h
  obtain ⟨hpermall, hnodup, hprop⟩ := staticOrder_ok_spec hso
  intro m d he hm hd
  have hmo : m ∈ order := hsub m hm
  obtain ⟨hdo, hrank⟩ := hprop m hmo d he
  have hdout : d ∈ out := hperm.mem_iff.mpr hd
  have hmout : m ∈ out := hperm.mem_iff.mpr hm
  exact ⟨hdout, hmout, sorted_indexOf_lt hsorted hdout hmout hrank⟩

theorem edge_mem_edgeList {g : Graph} {m d : Nat} (h : Edge g m d) :
    (m, d) ∈ edgeList g := by
  unfold Edge predsOf at h
  match hv : dictGet g m with
  | none => rw [hv] at h; simp at h
  | some deps =>
    rw [hv] at h
    simp only [Option.getD_some] at h
    refine List.mem_flatten.mpr ⟨deps.map (fun d => (m, d)), ?_, ?_⟩
    · exact List.mem_map_of_mem _ (dictGet_mem hv)
    · exact List.mem_map_of_mem _ h

/-- A graph admitting a rank function that strictly drops across every edge is
acyclic. -/
theorem acyclic_of_rank {g : Graph} (f : Nat → Nat)
    (h : ∀ p ∈ edgeList g, f p.2 < f p.1) : ¬ Cyclic g := by
  have hstep : ∀ m d, Edge g m d → f d < f m := fun m d he => h (m, d) (edge_mem_edgeList he)
  have htrans : ∀ v u, Relation.TransGen (Edge g) v u → f u < f v := by
    intro v u h'
    induction h' with
    | single e => exact hstep _ _ e
    | tail _ e ih => exact lt_trans (hstep _ _ e) ih
  rintro ⟨v, hv⟩
  exact absurd (htrans v v hv) (lt_irrefl _)

theorem cycMG_cyclic : Cyclic cycMG.dependency_graph :=
  ⟨0, Relation.TransGen.head (b := 1) (by decide) (Relation.TransGen.single (by decide))⟩

theorem exMG_acyclic : ¬ Cyclic exMG.dependency_graph :=
  acyclic_of_rank (fun n => if n = 0 then 2 else if n = 1 then 1 else if n = 2 then 1 else 0)
    (by decide)

/-- A cyclic graph makes every subset ranking fail with CycleError. -/
theorem sort_topo_cyclic {mg : MetricGraph} (hcyc : Cyclic mg.dependency_graph)
    (metrics : List Nat) :
    mg.sort_metrics_topologically metrics = .error .cycleError := by
  simp [MetricGraph.sort_metrics_topologically, MetricGraph.topologically_sorted_metrics,
    staticOrder_cyclic hcyc]

/-- C2: for every directed graph and start identifier, `get_ancestors` returns
exactly the identifiers reachable from the start by one or more dependency
edges — so the start itself is included precisely when it lies on a cycle
through itself — and an identifier that is not a key of the graph is treated
as a leaf with no dependencies rather than an error. -/
theorem claim_C2 (g : Graph) (v : Nat) :
    ((get_ancestors g v ∅ : Set Nat) = {u | Relation.TransGen (Edge g) v u}) ∧
    (v ∈ get_ancestors g v ∅ ↔ Relation.TransGen (Edge g) v v) ∧
    (∀ w A, dictGet g w = none → get_ancestors g w A = A) := by
  refine ⟨get_ancestors_empty_spec g v, ?_, ?_⟩
  · constructor
    · intro hv
      have h2 : v ∈ (get_ancestors g v ∅ : Set Nat) := hv
      rw [get_ancestors_empty_spec g v] at h2
      exact h2
    · intro hv
      have h2 : v ∈ {u | Relation.TransGen (Edge g) v u} := hv
      rw [← get_ancestors_empty_spec g v] at h2
      exact h2
  · intro w A hw
    have hpreds : predsOf g w = [] := by simp [predsOf, hw]
    simp [get_ancestors, getAncestorsFuel, hpreds, ancLoop]

theorem claim_C2_witness : get_ancestors [(5, [5])] 7 ∅ = ∅ :=
  (claim_C2 [(5, [5])] 7).2.2 7 ∅ (by decide)

/-- C3: `get_ancestors` terminates on every finite graph, cyclic ones
included: any fuel exceeding the number of distinct not-yet-visited
identifiers is enough for the fueled recursion to complete (an identifier in
the visited set is never re-expanded), and the completed value is
`get_ancestors`. -/
theorem claim_C3 (g : Graph) (v : Nat) (A : Finset Nat) (fuel : Nat)
    (h : (graphNodes g \ A).card < fuel) :
    getAncestorsFuel fuel g v A = some (get_ancestors g v A) :=
  getAncestorsFuel_eq g v A h

theorem claim_C3_witness :
    getAncestorsFuel 3 cycMG.dependency_graph 0 ∅ =
      some (get_ancestors cycMG.dependency_graph 0 ∅) :=
  claim_C3 cycMG.dependency_graph 0 ∅ 3 (by decide)

/-- C9: the dependency closure of a collection of starting metrics is the
union of the individual ancestor sets, and it is iteration-order independent:
any permutation of the starting collection produces the same set, even though
each later expansion is seeded with the set accumulated so far. -/
theorem claim_C9 (mg : MetricGraph) (ms : List Nat) :
    ((mg.get_metric_dependencies ms : Set Nat) =
      ⋃ m ∈ ms, (get_ancestors mg.dependency_graph m ∅ : Set Nat)) ∧
    (∀ ms', ms.Perm ms' →
      mg.get_metric_dependencies ms = mg.get_metric_dependencies ms') := by
  have hmain : ∀ (l : List Nat),
      (MetricGraph.get_metric_dependencies mg l : Set Nat) =
        ⋃ m ∈ l, {u | Relation.TransGen (Edge mg.dependency_graph) m u} := by
    intro l
    unfold MetricGraph.get_metric_dependencies
    rw [foldl_get_ancestors_closed mg.dependency_graph l ∅
      (by rw [Finset.coe_empty]; exact edgeClosed_empty _)]
    simp
  constructor
  · rw [hmain ms]
    exact Set.iUnion_congr fun m =>
      Set.iUnion_congr fun hm => (get_ancestors_empty_spec mg.dependency_graph m).symm
  · intro ms' hperm
    apply Finset.coe_injective
    rw [hmain ms, hmain ms']
    ext u
    simp [hperm.mem_iff]

theorem claim_C9_witness :
    exMG.get_metric_dependencies [0, 2] = exMG.get_metric_dependencies [2, 0] :=
  (claim_C9 exMG [0, 2]).2 [2, 0] (by decide)

/-- C6: demanding a definite topological rank over a cyclic dependency graph
raises CycleError — in particular ranking the subset containing a and b of the
two-cycle `{a: (b,), b: (a,)}` — while `get_ancestors` applied to the very
same graph returns the full cycle, and does so within fuel bounded by the
number of distinct identifiers. -/
theorem claim_C6 :
    (∀ (mg : MetricGraph) (S : List Nat), Cyclic mg.dependency_graph →
      mg.sort_metrics_topologically S = .error .cycleError) ∧
    (cycMG.sort_metrics_topologically [0, 1] = .error .cycleError) ∧
    (get_ancestors cycMG.dependency_graph 0 ∅ = {0, 1}) ∧
    (getAncestorsFuel 3 cycMG.dependency_graph 0 ∅ = some {0, 1}) :=
  ⟨fun _ S hcyc => sort_topo_cyclic hcyc S, by decide, by decide, by decide⟩

theorem claim_C6_witness : cycMG.sort_metrics_topologically [1] = .error .cycleError :=
  claim_C6.1 cycMG [1] cycMG_cyclic

/-- C10: a cycle anywhere in the dependency graph makes every call of
`calculate_metrics`, `recalculate_metrics`, `add_metrics` and the `metrics`
property raise CycleError — even when the requested metrics are disjoint from
the cyclic part — because the topological order is always computed over the
whole graph. -/
theorem claim_C10 (mg : MetricGraph) (hcyc : Cyclic mg.dependency_graph) :
    (∀ df metrics, mg.calculate_metrics df metrics = .error .cycleError) ∧
    (∀ df metrics, mg.recalculate_metrics df metrics = .error .cycleError) ∧
    (∀ df metrics, mg.add_metrics df metrics = .error .cycleError) ∧
    mg.metrics = .error .cycleError := by
  have hsort := fun S => sort_topo_cyclic hcyc S
  have hcalc : ∀ df metrics, mg.calculate_metrics df metrics = .error .cycleError := by
    intro df metrics
    simp [MetricGraph.calculate_metrics, hsort]
  refine ⟨hcalc, ?_, ?_, ?_⟩
  · intro df metrics
    simp [MetricGraph.recalculate_metrics, hsort]
  · intro df metrics
    simp [MetricGraph.add_metrics, hcalc]
  · simp [MetricGraph.metrics, MetricGraph.topologically_sorted_metrics,
      staticOrder_cyclic hcyc]

theorem claim_C10_witness :
    cycMG.calculate_metrics [] [0] = .error .cycleError ∧
      cycMG.metrics = .error .cycleError := by
  obtain ⟨h1, _, _, h4⟩ := claim_C10 cycMG cycMG_cyclic
  exact ⟨h1 [] [0], h4⟩

/-- C5: over an acyclic graph, ranking any subset of the identifiers that
appear in the topological order yields a permutation of that subset in which
every in-subset dependency precedes its in-subset dependent. -/
theorem claim_C5 (mg : MetricGraph) (S : List Nat)
    (hacyc : ¬ Cyclic mg.dependency_graph)
    (hS : ∀ m ∈ S, m ∈ allNodesList mg.dependency_graph) :
    ∃ out, mg.sort_metrics_topologically S = .ok out ∧ out.Perm S ∧
      ∀ m d, Edge mg.dependency_graph m d → m ∈ S → d ∈ S →
        out.indexOf d < out.indexOf m := by
  obtain ⟨order, horder⟩ := staticOrder_acyclic hacyc
  obtain ⟨hperm, hnodup, hprop⟩ := staticOrder_ok_spec horder
  have hfind : S.find? (fun m => !decide (m ∈ order)) = none := by
    rw [List.find?_eq_none]
    intro x hx
    simp [hperm.mem_iff.mpr (hS x hx)]
  have hsort : mg.sort_metrics_topologically S =
      .ok (S.insertionSort (fun a b => order.indexOf a ≤ order.indexOf b)) := by
    simp [MetricGraph.sort_metrics_topologically,
      MetricGraph.topologically_sorted_metrics, horder, hfind]
  refine ⟨_, hsort, List.perm_insertionSort _ S, ?_⟩
  intro m d he hm hd
  exact (sort_topo_respects_edges hsort m d he hm hd).2.2

theorem claim_C5_witness :
    ∃ out, exMG.sort_metrics_topologically [0, 2] = .ok out ∧ out.Perm [0, 2] := by
  obtain ⟨out, h1, h2, _⟩ := claim_C5 exMG [0, 2] exMG_acyclic (by decide)
  exact ⟨out, h1, h2⟩

theorem calculate_metrics_ok_elim {mg : MetricGraph} {df : DataFrame}
    {metrics : List Nat} {res : List (Nat × Column)}
    (h : mg.calculate_metrics df metrics = .ok res) :
    ∃ sorted calculated,
      mg.sort_metrics_topologically
        (finsetToList (mg.calcDependencies df metrics ∪ metrics.toFinset)) = .ok sorted ∧
      mg.calcWalk df metrics sorted [] = .ok calculated ∧
      buildResult calculated metrics [] = .ok res := by
  simp only [MetricGraph.calculate_metrics] at h
  split at h
  · exact absurd h (by simp)
  · rename_i sorted hs
    split at h
    · exact absurd h (by simp)
    · rename_i calculated hc
      exact ⟨sorted, calculated, hs, hc, h⟩

theorem recalculate_metrics_ok_elim {mg : MetricGraph} {df : DataFrame}
    {metrics : List Nat} {res : List (Nat × Column)}
    (h : mg.recalculate_metrics df metrics = .ok res) :
    ∃ sorted calculated,
      mg.sort_metrics_topologically
        (finsetToList (mg.get_metric_dependencies metrics ∪ metrics.toFinset)) =
          .ok sorted ∧
      mg.recalcWalk sorted [] = .ok calculated ∧
      buildResult calculated metrics [] = .ok res := by
  simp only [MetricGraph.recalculate_metrics] at h
  split at h
  · exact absurd h (by simp)
  · rename_i sorted hs
    split at h
    · exact absurd h (by simp)
    · rename_i calculated hc
      exact ⟨sorted, calculated, hs, hc, h⟩

theorem dictGet_some_iff_mem_keys {α : Type} (l : List (Nat × α)) (k : Nat) :
    (∃ v, dictGet l k = some v) ↔ k ∈ l.map Prod.fst := by
  induction l with
  | nil => simp [dictGet]
  | cons kv rest ih =>
    obtain ⟨k', v'⟩ := kv
    by_cases hk : k' = k
    · subst hk
      simp [dictGet]
    · simp only [dictGet, if_neg hk, List.map_cons, List.mem_cons]
      rw [ih]
      constructor
      · exact fun hm => Or.inr hm
      · rintro (hm | hm)
        · exact absurd hm.symm hk
        · exact hm

theorem dictInsert_map_fst {α : Type} (l : List (Nat × α)) (k : Nat) (v : α) :
    (dictInsert l k v).map Prod.fst =
      if k ∈ l.map Prod.fst then l.map Prod.fst else l.map Prod.fst ++ [k] := by
  induction l with
  | nil => simp [dictInsert]
  | cons kv rest ih =>
    obtain ⟨k', v'⟩ := kv
    by_cases hk : k' = k
    · subst hk
      simp [dictInsert]
    · simp only [dictInsert, if_neg hk, List.map_cons, ih, List.mem_cons]
      by_cases hmem : k ∈ rest.map Prod.fst
      · simp [hmem, Ne.symm hk]
      · simp [hmem, Ne.symm hk]

theorem keys_nodup_dictInsert {α : Type} {l : List (Nat × α)}
    (hnd : (l.map Prod.fst).Nodup) (k : Nat) (v : α) :
    ((dictInsert l k v).map Prod.fst).Nodup := by
  rw [dictInsert_map_fst]
  split
  · exact hnd
  · rename_i hmem
    simp [List.nodup_append, hnd, hmem]

theorem buildResult_keys_nodup (calculated : List (Nat × Column)) :
    ∀ (ms : List Nat) (acc res : List (Nat × Column)),
      buildResult calculated ms acc = .ok res →
      ((acc.map Prod.fst).Nodup) → ((res.map Prod.fst).Nodup) := by
  intro ms
  induction ms with
  | nil =>
    intro acc res h hnd
    simp only [buildResult] at h
    obtain rfl := Except.ok.inj h
    exact hnd
  | cons m rest ih =>
    intro acc res h hnd
    simp only [buildResult] at h
    split at h
    · simp at h
    · rename_i v hv
      exact ih (dictInsert acc m v) res h (keys_nodup_dictInsert hnd m v)

theorem dfAssign_get_of_not_mem_keys :
    ∀ {cal : List (Nat × Column)} (df : DataFrame) {c : Nat},
      c ∉ cal.map Prod.fst → dictGet (dfAssign df cal) c = dictGet df c := by
  intro cal
  induction cal with
  | nil => intro df c _; rfl
  | cons kv rest ih =>
    obtain ⟨k, w⟩ := kv
    intro df c hc
    simp only [List.map_cons, List.mem_cons] at hc
    push_neg at hc
    have h1 : dictGet (dfAssign (dictInsert df k w) rest) c =
        dictGet (dictInsert df k w) c := ih (dictInsert df k w) hc.2
    have h2 : dictGet (dictInsert df k w) c = dictGet df c :=
      dictGet_dictInsert_ne df w hc.1
    simp only [dfAssign, List.foldl_cons]
    rw [← h2, ← h1]
    rfl

theorem dfAssign_get_of_lookup :
    ∀ {cal : List (Nat × Column)}, ((cal.map Prod.fst).Nodup) →
      ∀ {m : Nat} {v : Column}, dictGet cal m = some v →
      ∀ (df : DataFrame), dictGet (dfAssign df cal) m = some v := by
  intro cal
  induction cal with
  | nil => intro _ m v h; simp [dictGet] at h
  | cons kv rest ih =>
    obtain ⟨k, w⟩ := kv
    intro hnd m v h df
    simp only [List.map_cons, List.nodup_cons] at hnd
    simp only [dictGet] at h
    by_cases hk : k = m
    · subst hk
      rw [if_pos rfl] at h
      obtain rfl := Option.some.inj h
      have hnot : k ∉ rest.map Prod.fst := hnd.1
      have : dictGet (dfAssign (dictInsert df k w) rest) k =
          dictGet (dictInsert df k w) k := dfAssign_get_of_not_mem_keys _ hnot
      simp only [dfAssign, List.foldl_cons]
      show dictGet (dfAssign (dictInsert df k w) rest) k = some w
      rw [this, dictGet_dictInsert_self]
    · rw [if_neg hk] at h
      have := ih hnd.2 h (dictInsert df k w)
      simpa [dfAssign] using this

theorem dfAssign_keys_iff :
    ∀ {cal : List (Nat × Column)} (df : DataFrame) (k : Nat),
      (∃ w, dictGet (dfAssign df cal) k = some w) ↔
        ((∃ w, dictGet df k = some w) ∨ k ∈ cal.map Prod.fst) := by
  intro cal
  induction cal with
  | nil => intro df k; simp [dfAssign]
  | cons kv rest ih =>
    obtain ⟨k', w'⟩ := kv
    intro df k
    have hstep : dfAssign df ((k', w') :: rest) = dfAssign (dictInsert df k' w') rest := rfl
    rw [hstep, ih (dictInsert df k' w') k]
    by_cases hk : k = k'
    · subst hk
      simp [dictGet_dictInsert_self df k w']
    · rw [dictGet_dictInsert_ne df w' hk]
      simp only [List.map_cons, List.mem_cons]
      constructor
      · rintro (hw | hw)
        · exact Or.inl hw
        · exact Or.inr (Or.inr hw)
      · rintro (hw | hk' | hw)
        · exact Or.inl hw
        · exact absurd hk' hk
        · exact Or.inr hw

/-- C1: for every table and requested collection, a successful
`calculate_metrics` run walks the ranked closure so that a requested metric is
always recomputed by its function over already-resolved dependency values
(even when a same-named column exists in the table), a metric without a
same-named column is computed, an unrequested metric with a same-named column
takes the table's value without its function being invoked, and the returned
mapping binds exactly the requested identifiers (internally computed
dependencies are not returned). -/
theorem claim_C1 (mg : MetricGraph) (df : DataFrame) (metrics : List Nat)
    (res : List (Nat × Column)) (h : mg.calculate_metrics df metrics = .ok res) :
    ∃ sorted calculated,
      mg.sort_metrics_topologically
        (finsetToList (mg.calcDependencies df metrics ∪ metrics.toFinset)) =
          .ok sorted ∧
      mg.calcWalk df metrics sorted [] = .ok calculated ∧
      (∀ m ∈ sorted, m ∈ metrics →
        ∃ v, mg.calculate_metric m calculated = .ok v ∧
          dictGet calculated m = some v) ∧
      (∀ m ∈ sorted, dictGet df m = none →
        ∃ v, mg.calculate_metric m calculated = .ok v ∧
          dictGet calculated m = some v) ∧
      (∀ m ∈ sorted, m ∉ metrics → ∀ value, dictGet df m = some value →
        dictGet calculated m = some value) ∧
      (∀ k, (∃ w, dictGet res k = some w) ↔ k ∈ metrics) ∧
      (∀ m ∈ metrics, dictGet res m = dictGet calculated m) := by
  obtain ⟨sorted, calculated, hsort, hwalk, hbuild⟩ := calculate_metrics_ok_elim h
  obtain ⟨order, hso, hsub, hperm, hsorted⟩ := sort_topo_ok_spec hsort
  have hnd : sorted.Nodup := hperm.nodup_iff.mpr (nodup_finsetToList _)
  obtain ⟨hpersist, hiff, hcomp, htake⟩ :=
    calcWalk_ok_spec mg df metrics sorted [] calculated hwalk hnd (fun m _ => rfl)
  obtain ⟨biff, bpersist, bval⟩ := buildResult_ok_spec calculated metrics [] res hbuild
  refine ⟨sorted, calculated, hsort, hwalk, ?_, ?_, ?_, ?_, ?_⟩
  · intro m hm hreq
    exact hcomp m hm (Or.inr hreq)
  · intro m hm hdf
    exact hcomp m hm (Or.inl hdf)
  · intro m hm hreq value hv
    exact htake m hm value hv hreq
  · intro k
    rw [biff k]
    simp [dictGet]
  · intro m hm
    obtain ⟨v, hc, hr⟩ := bval m hm
    rw [hc, hr]

theorem claim_C1_witness :
    ∃ w, dictGet [((0 : Nat), ([0, 0] : Column))] 0 = some w := by
  obtain ⟨_, _, _, _, _, _, _, hkeys, _⟩ :=
    claim_C1 exMG exDF [0] [(0, [0, 0])] (by decide)
  exact (hkeys 0).mpr (by simp)

/-- C4: `recalculate_metrics` never consults the table (its result is
identical for any two tables), a successful run computes every ranked metric —
every requested metric and every transitive dependency — by invoking its
function over resolved dependency values and returns exactly the requested
identifiers, and when the walk reaches a metric with no registered computing
function the call fails with a `KeyError` naming that metric, with no fallback
to a present column. -/
theorem claim_C4 (mg : MetricGraph) (df df' : DataFrame) (metrics : List Nat) :
    (mg.recalculate_metrics df metrics = mg.recalculate_metrics df' metrics) ∧
    (∀ res, mg.recalculate_metrics df metrics = .ok res →
      ∃ sorted calculated,
        mg.sort_metrics_topologically
          (finsetToList (mg.get_metric_dependencies metrics ∪ metrics.toFinset)) =
            .ok sorted ∧
        mg.recalcWalk sorted [] = .ok calculated ∧
        (∀ m ∈ sorted, ∃ v, mg.calculate_metric m calculated = .ok v ∧
          dictGet calculated m = some v) ∧
        (∀ k, (∃ w, dictGet res k = some w) ↔ k ∈ metrics) ∧
        (∀ m ∈ metrics, dictGet res m = dictGet calculated m)) ∧
    (∀ pre m post cal,
      mg.sort_metrics_topologically
        (finsetToList (mg.get_metric_dependencies metrics ∪ metrics.toFinset)) =
          .ok (pre ++ m :: post) →
      mg.recalcWalk pre [] = .ok cal →
      dictGet mg.metric_functions m = none →
      mg.recalculate_metrics df metrics = .error (.keyError m)) := by
  refine ⟨rfl, ?_, ?_⟩
  · intro res h
    obtain ⟨sorted, calculated, hsort, hwalk, hbuild⟩ := recalculate_metrics_ok_elim h
    obtain ⟨order, hso, hsub, hperm, hsorted⟩ := sort_topo_ok_spec hsort
    have hnd : sorted.Nodup := hperm.nodup_iff.mpr (nodup_finsetToList _)
    obtain ⟨hpersist, hiff, hcomp⟩ :=
      recalcWalk_ok_spec mg sorted [] calculated hwalk hnd (fun m _ => rfl)
    obtain ⟨biff, bpersist, bval⟩ := buildResult_ok_spec calculated metrics [] res hbuild
    refine ⟨sorted, calculated, hsort, hwalk, hcomp, ?_, ?_⟩
    · intro k
      rw [biff k]
      simp [dictGet]
    · intro m hm
      obtain ⟨v, hc, hr⟩ := bval m hm
      rw [hc, hr]
  · intro pre m post cal hsort hpre hfn
    have herr : mg.recalcWalk (pre ++ m :: post) [] = .error (.keyError m) :=
      recalcWalk_error_at mg m post hpre (calculate_metric_missing_fn hfn cal)
    simp [MetricGraph.recalculate_metrics, hsort, herr]

theorem claim_C4_witness :
    exMG.recalculate_metrics exDF [0] = .error (.keyError 3) ∧
      exMG.recalculate_metrics exDF [0] = exMG.recalculate_metrics [] [0] := by
  obtain ⟨heq, _, herr⟩ := claim_C4 exMG exDF [] [0]
  exact ⟨herr [] 3 [4, 5, 6, 7, 8, 1, 2, 0] [] (by decide) (by decide) rfl, heq⟩

/-- C7: during `calculate_metrics`, when the walk reaches a metric that must
be computed — requested, or without a same-named table column — and that
metric has no registered computing function, the call fails with a `KeyError`
naming that metric. -/
theorem claim_C7 (mg : MetricGraph) (df : DataFrame) (metrics : List Nat)
    (pre : List Nat) (m : Nat) (post : List Nat) (cal : List (Nat × Column))
    (hsort : mg.sort_metrics_topologically
      (finsetToList (mg.calcDependencies df metrics ∪ metrics.toFinset)) =
        .ok (pre ++ m :: post))
    (hpre : mg.calcWalk df metrics pre [] = .ok cal)
    (hside : dictGet df m = none ∨ m ∈ metrics)
    (hfn : dictGet mg.metric_functions m = none) :
    mg.calculate_metrics df metrics = .error (.keyError m) := by
  have herr : mg.calcWalk df metrics (pre ++ m :: post) [] = .error (.keyError m) :=
    calcWalk_error_at mg df metrics m post hpre hside (calculate_metric_missing_fn hfn cal)
  simp [MetricGraph.calculate_metrics, hsort, herr]

theorem claim_C7_witness : missMG.calculate_metrics [] [0] = .error (.keyError 0) :=
  claim_C7 missMG [] [0] [] 0 [] [] (by decide) (by decide) (Or.inl (by decide)) rfl

/-- C8: a successful `add_metrics` returns a new table that preserves every
column not named in the request (hence their row data, count and order), sets
each requested column to the value `calculate_metrics` computed for it, and
has a column exactly for the original columns plus the requested metrics; the
input table value is untouched. -/
theorem claim_C8 (mg : MetricGraph) (df : DataFrame) (metrics : List Nat)
    (df' : DataFrame) (h : mg.add_metrics df metrics = .ok df') :
    ∃ calculated, mg.calculate_metrics df metrics = .ok calculated ∧
      df' = dfAssign df calculated ∧
      (∀ c, c ∉ metrics → dictGet df' c = dictGet df c) ∧
      (∀ m ∈ metrics, dictGet df' m = dictGet calculated m) ∧
      (∀ k, (∃ w, dictGet df' k = some w) ↔
        ((∃ w, dictGet df k = some w) ∨ k ∈ metrics)) := by
  simp only [MetricGraph.add_metrics] at h
  split at h
  · exact absurd h (by simp)
  · rename_i calculated hc
    obtain rfl : dfAssign df calculated = df' := Except.ok.inj h
    obtain ⟨sorted, walkcal, hsort, hwalk, hbuild⟩ := calculate_metrics_ok_elim hc
    obtain ⟨biff, bpersist, bval⟩ := buildResult_ok_spec walkcal metrics [] calculated hbuild
    have hkeysiff : ∀ k, (∃ w, dictGet calculated k = some w) ↔ k ∈ metrics := by
      intro k
      rw [biff k]
      simp [dictGet]
    have hmemkeys : ∀ k, k ∈ calculated.map Prod.fst ↔ k ∈ metrics := by
      intro k
      rw [← dictGet_some_iff_mem_keys]
      exact hkeysiff k
    have hnd : (calculated.map Prod.fst).Nodup :=
      buildResult_keys_nodup walkcal metrics [] calculated hbuild (by simp)
    refine ⟨calculated, hc, rfl, ?_, ?_, ?_⟩
    · intro c hc'
      exact dfAssign_get_of_not_mem_keys df (fun hmem => hc' ((hmemkeys c).mp hmem))
    · intro m hm
      obtain ⟨w, hw⟩ := (hkeysiff m).mpr hm
      rw [hw, dfAssign_get_of_lookup hnd hw df]
    · intro k
      rw [dfAssign_keys_iff df k, hmemkeys k]

theorem claim_C8_witness :
    dictGet [(1, [170, 150]), (4, [80, 100]), (3, [600, 600]),
      ((0 : Nat), ([0, 0] : Column)), (2, [520, 500])] 4 = dictGet exDF 4 := by
  obtain ⟨calculated, _, _, hpres, _, _⟩ :=
    claim_C8 exMG exDF [0, 2]
      [(1, [170, 150]), (4, [80, 100]), (3, [600, 600]), (0, [0, 0]), (2, [520, 500])]
      (by decide)
  exact hpres 4 (by decide)
